import Mathlib

/-!
# MindDrive agent core — shallow embedding and verification

This file embeds the agent core of the MindDrive repository in Lean 4 and
proves (or refutes) the specification claims about it.

Embedded components (TypeScript sources):
* Agent Router (`agent-router`): pattern scoring, confidence, the LLM router
  fallback chain and `routeToAgent`.
* Task Planner (`task-planner`): `generateTaskPlan`'s post-parse plan
  construction and the `TaskPlanTracker` step-state transitions.
* Task Orchestrator (`task-orchestrator`): `executePlan`'s step iteration.
* Agent Service (`agent.service` / the agent `chat` path): sticky-routing
  glue, the single-agent plan update, message compression and tool-result
  truncation.

Modelling conventions:
* JavaScript strings are modelled as Lean `String`; `.slice(0, n)` becomes
  `jsSlice`, `.length` becomes `String.length` (code-unit vs. character
  differences are immaterial to the verified properties).
* JavaScript numbers are modelled as `Int`/`Nat` where the code only ever
  holds integers, and as `Rat` where fractional values arise (confidences).
* External I/O (the language-model backend, the MCP tool interface, the
  capability gateway) is modelled by explicit outcome data types: each
  constructor corresponds to one observable outcome of the call, including
  thrown exceptions that the source catches.
* In-place mutation is modelled by explicit state passing.  Where the source
  mutates objects shared between its input and its result (the tracker's
  shallow-copied step arrays), a separate `...ArgAfter` function denotes the
  post-call value of the caller's argument.
-/

/-- JS `s.slice(0, n)` on a string (first `n` code units). -/
def jsSlice (s : String) (n : Nat) : String :=
  String.mk (s.toList.take n)

/-- The three specialized agent types of the system (`agent.types`,
reconstructed from its uses and the spec's glossary). -/
inductive AgentType where
  | drive
  | document
  | search
deriving DecidableEq, Repr

/-- `RouteDecision.source` values (`agent.types`). -/
inductive RouteSource where
  | explicit
  | pattern
  | conversation
  | llm
  | default
deriving DecidableEq, Repr

/-- A routing decision (`agent.types`).  The presentational `reason` text is
not modelled; no verified property depends on it. -/
structure RouteDecision where
  route_to : AgentType
  confidence : Rat
  source : RouteSource
deriving DecidableEq, Repr

/-- One entry of the router's per-type pattern score list (`agent-router`). -/
structure PatternScore where
  type : AgentType
  score : Nat
  total : Nat
deriving DecidableEq, Repr

/-- Stable descending insertion (by `score`) used to model the JS
`Array.prototype.sort` call with comparator `(a, b) => b.score - a.score`
(stable per ES2019): an element is placed after all existing elements with a
score `≥` its own. -/
def insertScoreDesc (x : PatternScore) : List PatternScore → List PatternScore
  | [] => [x]
  | y :: ys => if x.score ≤ y.score then y :: insertScoreDesc x ys else x :: y :: ys

/-- `calculatePatternScores` (`agent-router`): the message enters only through
the regex tests, so the function is parameterised by the three raw match
counts (`docScore`, `searchScore`, `driveScore`); the pattern-set sizes 9, 8
and 9 are the lengths of `DOCUMENT_PATTERNS`, `SEARCH_PATTERNS` and
`DRIVE_PATTERNS`.  The list is pushed in the order document, search, drive
and then stably sorted by descending score. -/
def calculatePatternScores (docScore searchScore driveScore : Nat) : List PatternScore :=
  [ PatternScore.mk .document docScore 9,
    PatternScore.mk .search searchScore 8,
    PatternScore.mk .drive driveScore 9 ].foldl (fun acc x => insertScoreDesc x acc) []

/-- `getConfidence` (`agent-router`). -/
def getConfidence (scores : List PatternScore) : Rat :=
  match scores with
  | [] => 0
  | [x] => if x.score > 0 then 1 else 0
  | x :: y :: _ =>
    if x.score = 0 then 0
    else if y.score = 0 then min ((x.score : Rat) / 3) 1
    else ((x.score : Rat) - (y.score : Rat)) / ((x.score : Rat) + (y.score : Rat))

/-- `scores[0]` of the (always three-element) score list; the default value is
never reached. -/
def topOf (scores : List PatternScore) : PatternScore :=
  scores.headD (PatternScore.mk .document 0 0)

/-- The agent-type strings accepted by the router's `validTypes` check and the
planner's `agentType` validation. -/
def parseAgentType (s : String) : Option AgentType :=
  if s = "drive" then some .drive
  else if s = "document" then some .document
  else if s = "search" then some .search
  else none

/-- Observable outcomes of the LLM router call inside `callLlmRouter`
(`agent-router`): everything up to and including `JSON.parse` runs inside a
`try`/`catch`, so a thrown exception is an outcome, not an escape. -/
inductive LlmRouterOutcome where
  /-- `config.llmApiKey` is unset (`if (!apiKey) return null`). -/
  | noApiKey
  /-- `fetch` / `response.json()` / `JSON.parse` threw (caught). -/
  | thrown
  /-- `!response.ok`. -/
  | httpError (status : Nat)
  /-- missing or empty `choices[0].message.content`. -/
  | emptyContent
  /-- the content held no `{...}` JSON object. -/
  | noJsonObject
  /-- a JSON object was parsed, with these fields (absent fields are `none`). -/
  | parsed (route_to : String) (confidence : Option Rat) (reason : Option String)
deriving DecidableEq, Repr

/-- `callLlmRouter` (`agent-router`), as a function of the call's outcome.
Every failure outcome maps to `none`; a parsed object with an out-of-set
`route_to` is rejected; the confidence is clamped by
`Math.min(Math.max(parsed.confidence || 0.5, 0), 1)` (a missing or `0`
confidence is falsy and becomes `0.5`). -/
def callLlmRouter (o : LlmRouterOutcome) : Option RouteDecision :=
  match o with
  | .parsed route_to confidence _ =>
    match parseAgentType route_to with
    | none => none
    | some t =>
      let c : Rat := match confidence with
        | some c => if c = 0 then 1/2 else c
        | none => 1/2
      some (RouteDecision.mk t (min (max c 0) 1) .llm)
  | _ => none

/-- `routeToAgent` (`agent-router`).  `threshold` stands for the
`PATTERN_CONFIDENCE_THRESHOLD` constant imported from `agent.types` (whose
source is not in the repository snapshot; the spec fixes no value, so it is
kept as a parameter).  The message enters only through the three pattern
match counts. -/
def routeToAgent (threshold : Rat) (explicitType conversationAgentType : Option AgentType)
    (docScore searchScore driveScore : Nat) (o : LlmRouterOutcome) : RouteDecision :=
  match explicitType with
  | some t => RouteDecision.mk t 1 .explicit
  | none =>
    let scores := calculatePatternScores docScore searchScore driveScore
    let confidence := getConfidence scores
    let topScore := topOf scores
    if topScore.score > 0 ∧ confidence ≥ threshold then
      RouteDecision.mk topScore.type confidence .pattern
    else
      match conversationAgentType with
      | some t => RouteDecision.mk t (9/10) .conversation
      | none =>
        match callLlmRouter o with
        | some d => d
        | none =>
          if topScore.score > 0 then
            RouteDecision.mk topScore.type (if confidence = 0 then 3/10 else confidence) .pattern
          else
            RouteDecision.mk .drive (1/5) .default

/-- Step statuses (`agent.types`; the string values appear throughout
`task-planner`). -/
inductive TaskStatus where
  | pending
  | inProgress
  | completed
  | failed
  | skipped
deriving DecidableEq, Repr

/-- One plan step (`agent.types`, reconstructed from its construction in
`generateTaskPlan` and its uses in the tracker and orchestrator). -/
structure TaskStep where
  id : Nat
  title : String
  description : String
  status : TaskStatus
  agentType : Option AgentType
  result : Option String
  error : Option String
deriving DecidableEq, Repr

/-- A task plan (`agent.types`; spec §3). -/
structure TaskPlan where
  goal : String
  steps : List TaskStep
  currentStep : Nat
  isComplete : Bool
  summary : Option String
deriving DecidableEq, Repr

/-- One element of the `steps` array of the JSON object parsed inside
`generateTaskPlan` (`task-planner`).  The parsed `id` is ignored by the code
(ids are reassigned densely), and a missing `agentType` is `none`. -/
structure ParsedStep where
  id : Int
  title : String
  description : String
  agentType : Option String
deriving DecidableEq, Repr

/-- Observable outcomes of the plan-generation LLM call inside
`generateTaskPlan` (`task-planner`); the whole fetch-and-parse pipeline runs
inside a `try`/`catch`. -/
inductive PlanGenOutcome where
  /-- `config.llmApiKey` is unset. -/
  | noApiKey
  /-- `fetch` / `response.json()` / `JSON.parse` threw (caught). -/
  | thrown
  /-- `!response.ok`. -/
  | httpError (status : Nat)
  /-- missing or empty content. -/
  | emptyContent
  /-- the content held no `{...}` JSON object. -/
  | noJsonObject
  /-- a JSON object `{goal, steps}` was parsed (a missing `steps` field is
  the empty list: both fail the `!parsed.steps || length === 0` check). -/
  | parsed (goal : String) (steps : List ParsedStep)
deriving DecidableEq, Repr

/-- `generateTaskPlan` (`task-planner`), as a function of the call's outcome:
`null` on every failure and on zero steps; otherwise step ids are assigned
densely from 1 in array order (`map((s, i) => ({id: i + 1, ...}))`), every
status is `pending`, the `agentType` is kept only if it is one of the three
valid strings, `currentStep` is 1 and `isComplete` is `false`. -/
def generateTaskPlan (o : PlanGenOutcome) : Option TaskPlan :=
  match o with
  | .parsed goal parsedSteps =>
    if parsedSteps = [] then none
    else
      let steps : List TaskStep := parsedSteps.mapIdx (fun i s =>
        TaskStep.mk (i + 1) s.title s.description .pending
          (match s.agentType with
           | some a => parseAgentType a
           | none => none)
          none none)
      some (TaskPlan.mk goal steps 1 false none)
  | _ => none

/-- `steps.find((s) => s.id === cur)` followed by in-place mutation of the
found step, denoted as a pure list update of the first matching element
(`task-planner`, all four tracker transitions). -/
def updFirst (steps : List TaskStep) (cur : Nat) (f : TaskStep → TaskStep) : List TaskStep :=
  match steps with
  | [] => []
  | s :: rest => if s.id = cur then f s :: rest else s :: updFirst rest cur f

/-- `steps.find((s) => s.status === "pending")` (`task-planner`). -/
def findPending (steps : List TaskStep) : Option TaskStep :=
  steps.find? (fun s => s.status = .pending)

/-- The shared advance block of `completeCurrentStep` / `failCurrentStep` /
`skipCurrentStep` (`task-planner`): move `currentStep` to the first `pending`
step's id, or set `isComplete` if none remains. -/
def advancePlan (plan : TaskPlan) (steps : List TaskStep) : TaskPlan :=
  match findPending steps with
  | some nextPending => { plan with steps := steps, currentStep := nextPending.id }
  | none => { plan with steps := steps, isComplete := true }

namespace TaskPlanTracker

/-- `TaskPlanTracker.startCurrentStep` (`task-planner`): mark the step whose
id equals `plan.currentStep` as `in-progress`. -/
def startCurrentStep (plan : TaskPlan) : TaskPlan :=
  { plan with steps := updFirst plan.steps plan.currentStep (fun s => { s with status := .inProgress }) }

/-- The updated step array of `completeCurrentStep`. -/
def completeSteps (plan : TaskPlan) (result : Option String) : List TaskStep :=
  updFirst plan.steps plan.currentStep (fun s => { s with status := .completed, result := result })

/-- `TaskPlanTracker.completeCurrentStep` (`task-planner`). -/
def completeCurrentStep (plan : TaskPlan) (result : Option String) : TaskPlan :=
  advancePlan plan (completeSteps plan result)

/-- The updated step array of `failCurrentStep`. -/
def failSteps (plan : TaskPlan) (error : String) : List TaskStep :=
  updFirst plan.steps plan.currentStep (fun s => { s with status := .failed, error := some error })

/-- `TaskPlanTracker.failCurrentStep` (`task-planner`). -/
def failCurrentStep (plan : TaskPlan) (error : String) : TaskPlan :=
  advancePlan plan (failSteps plan error)

/-- The updated step array of `skipCurrentStep` (`reason || "Skipped"`: a
missing or empty reason is falsy and becomes `"Skipped"`). -/
def skipSteps (plan : TaskPlan) (reason : Option String) : List TaskStep :=
  updFirst plan.steps plan.currentStep (fun s =>
    { s with status := .skipped,
             result := some (match reason with
                             | some r => if r = "" then "Skipped" else r
                             | none => "Skipped") })

/-- `TaskPlanTracker.skipCurrentStep` (`task-planner`). -/
def skipCurrentStep (plan : TaskPlan) (reason : Option String) : TaskPlan :=
  advancePlan plan (skipSteps plan reason)

/-- Post-call value of the caller's `plan` argument after `startCurrentStep`:
the source copies the plan object and the steps *array*
(`{ ...plan, steps: [...plan.steps] }`) but the step *objects* are shared, and
`step.status = "in-progress"` mutates the shared object, so the argument's
step array shows the same update while its scalar fields are untouched. -/
def startCurrentStepArgAfter (plan : TaskPlan) : TaskPlan :=
  { plan with steps := updFirst plan.steps plan.currentStep (fun s => { s with status := .inProgress }) }

/-- Post-call value of the caller's `plan` argument after
`completeCurrentStep` (same sharing as `startCurrentStepArgAfter`). -/
def completeCurrentStepArgAfter (plan : TaskPlan) (result : Option String) : TaskPlan :=
  { plan with steps := completeSteps plan result }

/-- Post-call value of the caller's `plan` argument after `failCurrentStep`. -/
def failCurrentStepArgAfter (plan : TaskPlan) (error : String) : TaskPlan :=
  { plan with steps := failSteps plan error }

/-- Post-call value of the caller's `plan` argument after `skipCurrentStep`. -/
def skipCurrentStepArgAfter (plan : TaskPlan) (reason : Option String) : TaskPlan :=
  { plan with steps := skipSteps plan reason }

end TaskPlanTracker

/-- The four tracker transitions, as data (for quantifying over transition
sequences). -/
inductive PlanTrans where
  | start
  | complete (result : Option String)
  | fail (error : String)
  | skip (reason : Option String)
deriving DecidableEq, Repr

/-- Apply one tracker transition. -/
def applyTrans (t : PlanTrans) (plan : TaskPlan) : TaskPlan :=
  match t with
  | .start => TaskPlanTracker.startCurrentStep plan
  | .complete r => TaskPlanTracker.completeCurrentStep plan r
  | .fail e => TaskPlanTracker.failCurrentStep plan e
  | .skip r => TaskPlanTracker.skipCurrentStep plan r

/-- Apply a sequence of tracker transitions, oldest first. -/
def applyTransList (ts : List PlanTrans) (plan : TaskPlan) : TaskPlan :=
  ts.foldl (fun p t => applyTrans t p) plan

/-- `updFirst` preserves the number of steps. -/
@[simp]
theorem updFirst_length (steps : List TaskStep) (cur : Nat) (f : TaskStep → TaskStep) :
    (updFirst steps cur f).length = steps.length := by
  induction steps with
  | nil => rfl
  | cons s rest ih =>
    simp only [updFirst]
    by_cases h : s.id = cur <;> simp [h, ih]

/-- `advancePlan` installs exactly the given step list. -/
@[simp]
theorem advancePlan_steps (plan : TaskPlan) (steps : List TaskStep) :
    (advancePlan plan steps).steps = steps := by
  unfold advancePlan
  cases findPending steps <;> rfl

@[simp]
theorem advancePlan_goal (plan : TaskPlan) (steps : List TaskStep) :
    (advancePlan plan steps).goal = plan.goal := by
  unfold advancePlan
  cases findPending steps <;> rfl

@[simp]
theorem startCurrentStep_length (plan : TaskPlan) :
    (TaskPlanTracker.startCurrentStep plan).steps.length = plan.steps.length := by
  simp [TaskPlanTracker.startCurrentStep]

@[simp]
theorem completeCurrentStep_length (plan : TaskPlan) (r : Option String) :
    (TaskPlanTracker.completeCurrentStep plan r).steps.length = plan.steps.length := by
  simp [TaskPlanTracker.completeCurrentStep, TaskPlanTracker.completeSteps]

@[simp]
theorem failCurrentStep_length (plan : TaskPlan) (e : String) :
    (TaskPlanTracker.failCurrentStep plan e).steps.length = plan.steps.length := by
  simp [TaskPlanTracker.failCurrentStep, TaskPlanTracker.failSteps]

@[simp]
theorem skipCurrentStep_length (plan : TaskPlan) (r : Option String) :
    (TaskPlanTracker.skipCurrentStep plan r).steps.length = plan.steps.length := by
  simp [TaskPlanTracker.skipCurrentStep, TaskPlanTracker.skipSteps]

/-- The string name of an agent type (template-literal interpolation). -/
def AgentType.str : AgentType → String
  | .drive => "drive"
  | .document => "document"
  | .search => "search"

/-- A recorded tool call (`Conversation.model`'s `IToolCall`: operation name,
argument map, result text, error flag).  Arguments are modelled as an opaque
key-value list; no verified property depends on their contents. -/
structure IToolCall where
  toolName : String
  args : List (String × String)
  result : String
  isError : Bool
deriving DecidableEq, Repr

/-- One pending approval as accumulated by the agent loop
(`base-agent`'s `AgentLoopResult["pendingApprovals"]` entries; the stored
argument map is modelled opaquely). -/
structure PendingApproval where
  approvalId : String
  toolName : String
  args : List (String × String)
  reason : String
deriving DecidableEq, Repr

/-- Observable outcome of one `agent.run(...)` call made by the orchestrator
for one step: either the loop returned a result, or it threw. -/
inductive StepOutcome where
  | success (content : String) (toolCalls : List IToolCall) (approvals : List PendingApproval)
  | thrown (errMsg : String)

/-- `StepResult` (`task-orchestrator`).  The source stores a reference to the
(mutated) step object; only its immutable `id`/`title` fields are ever read
downstream, so the step is stored here as the snapshot taken when the
iteration reached it. -/
structure StepResult where
  step : TaskStep
  content : String
  toolCalls : List IToolCall
  pendingApprovals : List PendingApproval
  success : Bool
  error : Option String
deriving Repr

/-- `OrchestratorResult` (`task-orchestrator`), without the presentational
`content` / `updatedSummaries` fields (final-response text assembly and
summary threading are not needed by any verified property). -/
structure OrchestratorResult where
  plan : TaskPlan
  toolCalls : List IToolCall
  pendingApprovals : List PendingApproval
  stepResults : List StepResult

/-- `TaskOrchestrator.needsOrchestration` (`task-orchestrator`): more than one
distinct step agent type, or more than one step. -/
def needsOrchestration (plan : TaskPlan) : Bool :=
  decide ((plan.steps.filterMap (fun s => s.agentType)).dedup.length > 1)
    || decide (plan.steps.length > 1)

/-- The step-iteration loop of `TaskOrchestrator.executePlan`
(`task-orchestrator`).  `avail` models the `this.agents` record lookup,
`baseType` is `baseContext.type`, and `outcomes idx` is the observable
outcome of the `agent.run` call made for the step at array position `idx`.
The `for (const step of currentPlan.steps)` loop iterates the array captured
at entry, but the tracker mutates the shared step objects, so reading the
current plan's step at position `idx` is the faithful denotation.  Per
pending step: resolve the agent (fail the step and continue if none), mark
in-progress, run, then on success mark completed with a 200-character digest
and stop if the run yielded pending approvals; on a thrown error mark failed
and continue. -/
def executeSteps (avail : AgentType → Bool) (baseType : AgentType)
    (outcomes : Nat → StepOutcome) (plan : TaskPlan) (idx : Nat)
    (accToolCalls : List IToolCall) (accApprovals : List PendingApproval)
    (accResults : List StepResult) : OrchestratorResult :=
  if h : idx < plan.steps.length then
    let step := plan.steps.get ⟨idx, h⟩
    if step.status ≠ .pending then
      executeSteps avail baseType outcomes plan (idx + 1) accToolCalls accApprovals accResults
    else
      let agentType := step.agentType.getD baseType
      if avail agentType = false then
        let plan' := TaskPlanTracker.failCurrentStep plan
          ("No agent available for type: " ++ agentType.str)
        executeSteps avail baseType outcomes plan' (idx + 1) accToolCalls accApprovals
          (accResults ++ [StepResult.mk step "" [] [] false
            (some ("No agent for type: " ++ agentType.str))])
      else
        let plan1 := TaskPlanTracker.startCurrentStep plan
        match outcomes idx with
        | .success content tcs appr =>
          let plan2 := TaskPlanTracker.completeCurrentStep plan1 (some (jsSlice content 200))
          let accToolCalls1 := accToolCalls ++ tcs
          let accApprovals1 := accApprovals ++ appr
          let accResults1 := accResults ++ [StepResult.mk step content tcs appr true none]
          if appr ≠ [] then
            OrchestratorResult.mk plan2 accToolCalls1 accApprovals1 accResults1
          else
            executeSteps avail baseType outcomes plan2 (idx + 1) accToolCalls1 accApprovals1
              accResults1
        | .thrown errMsg =>
          let plan2 := TaskPlanTracker.failCurrentStep plan1 errMsg
          executeSteps avail baseType outcomes plan2 (idx + 1) accToolCalls accApprovals
            (accResults ++ [StepResult.mk step "" [] [] false (some errMsg)])
  else
    OrchestratorResult.mk plan accToolCalls accApprovals accResults
termination_by plan.steps.length - idx
decreasing_by
  all_goals simp_all
  all_goals omega

/-- `TaskOrchestrator.executePlan` (`task-orchestrator`): the plan is
deep-cloned on entry (the identity in this pure model) and the step loop runs
from position 0 with empty accumulators. -/
def executePlan (avail : AgentType → Bool) (baseType : AgentType)
    (outcomes : Nat → StepOutcome) (plan : TaskPlan) : OrchestratorResult :=
  executeSteps avail baseType outcomes plan 0 [] [] []

/-- The sticky-type argument computed by `AgentService.chat` before routing
(`agent.service`, agent path): `previousPlanDone = !activePlan ||
activePlan.isComplete`, and `conversationAgentType` is passed to
`routeToAgent` only when `previousPlanDone` is false, i.e. only while an
unfinished plan exists. -/
def chatStickyArg (activePlan : Option TaskPlan) (conversationAgentType : AgentType) :
    Option AgentType :=
  match activePlan with
  | none => none
  | some p => if p.isComplete then none else some conversationAgentType

/-- The route decision computed by one `chat` turn (`agent.service`, agent
path): `routeToAgent` applied to the caller hint, the guarded sticky type and
the message's pattern scores. -/
def chatRouteDecision (threshold : Rat) (hint : Option AgentType)
    (activePlan : Option TaskPlan) (conversationAgentType : AgentType)
    (docScore searchScore driveScore : Nat) (o : LlmRouterOutcome) : RouteDecision :=
  routeToAgent threshold hint (chatStickyArg activePlan conversationAgentType)
    docScore searchScore driveScore o

/-- `MAX_TOOL_RESULT_CHARS`: defined as `20_000` in `agent.service.ts`; the
identically named `agent.types` constant used by `base-agent` is not in the
repository snapshot, and the spec's truncation scenario fixes the same
20,000-character cap. -/
def MAX_TOOL_RESULT_CHARS : Nat := 20000

/-- The oversized-result truncation of the `base-agent` agent loop: a result
longer than the cap becomes its first `MAX_TOOL_RESULT_CHARS` characters plus
a fixed-form notice carrying the original length. -/
def truncateToolResult (result : String) : String :=
  if result.length > MAX_TOOL_RESULT_CHARS then
    jsSlice result MAX_TOOL_RESULT_CHARS ++
      ("\n\n[Truncated: " ++ toString MAX_TOOL_RESULT_CHARS ++ " of "
        ++ toString result.length ++ " chars]")
  else result

/-- The oversized-result truncation of `AgentService.runAgentLoop` in
`agent.service.ts` (same shape, different notice text). -/
def truncateToolResultLegacy (result : String) : String :=
  if result.length > MAX_TOOL_RESULT_CHARS then
    jsSlice result MAX_TOOL_RESULT_CHARS ++
      ("\n\n[Content truncated: showing " ++ toString MAX_TOOL_RESULT_CHARS ++ " of "
        ++ toString result.length
        ++ " characters. Use semantic_search_files for targeted queries on large files.]")
  else result

/-- Observable outcome of one requested tool call inside the `base-agent`
loop, after the gateway decision: blocked, approval-required, executed (with
the tool's joined text and error flag), or the tool call threw (caught). -/
inductive GatewayToolOutcome where
  | blocked (reason : String)
  | approvalRequired (approvalId : String) (reason : String)
  | executed (resultText : String) (isError : Bool)
  | threw (errMsg : String)
deriving DecidableEq, Repr

/-- Per-call processing of the `base-agent` loop (`base-agent`, gateway
branch, truncation, and tool-call recording): returns the recorded
`IToolCall` and the pending approval, if one was registered.  A blocked call
records a `[BLOCKED]` result with the error flag set; an approval-required
call records an `[APPROVAL REQUIRED]` result with the error flag clear
("Not an error, just pending"); an executed call keeps the tool's own error
flag; a thrown call records a synthesized error result with the flag set. -/
def processToolCall (name : String) (args : List (String × String))
    (o : GatewayToolOutcome) : IToolCall × Option PendingApproval :=
  match o with
  | .approvalRequired approvalId reason =>
    (IToolCall.mk name args
      (truncateToolResult
        ("[APPROVAL REQUIRED] This operation requires user approval: " ++ reason
          ++ ". The user has been notified and needs to approve before this action can proceed."))
      false,
     some (PendingApproval.mk approvalId name args reason))
  | .blocked reason =>
    (IToolCall.mk name args (truncateToolResult ("[BLOCKED] " ++ reason)) true, none)
  | .executed resultText isError =>
    (IToolCall.mk name args (truncateToolResult resultText) isError, none)
  | .threw errMsg =>
    (IToolCall.mk name args (truncateToolResult ("Tool execution error: " ++ errMsg)) true, none)

/-- `tc.result || "Unknown error"` (an empty result string is falsy). -/
def resultOrUnknown (s : String) : String :=
  if s = "" then "Unknown error" else s

/-- The error digest joined by the single-agent plan update
(`agent.service`, agent path): the error-flagged tool results joined by
`"; "`. -/
def joinToolErrors (toolCalls : List IToolCall) : String :=
  String.intercalate "; "
    ((toolCalls.filter (fun tc => tc.isError)).map (fun tc => resultOrUnknown tc.result))

/-- The post-run plan update of the single-agent path of `AgentService.chat`
(`agent.service`, agent path): fail the current step with the joined error
digest if any recorded tool call has its error flag set, else complete it
with a 200-character content digest. -/
def chatRunPlanUpdate (plan : TaskPlan) (toolCalls : List IToolCall) (content : String) :
    TaskPlan :=
  if toolCalls.any (fun tc => tc.isError) then
    TaskPlanTracker.failCurrentStep plan (joinToolErrors toolCalls)
  else
    TaskPlanTracker.completeCurrentStep plan (some (jsSlice content 200))

/-- The full single-agent plan handling of one `chat` turn (`agent.service`,
agent path): when an incomplete plan is active, mark its current step
in-progress before the run and apply `chatRunPlanUpdate` after it (the
post-run guard re-checks `!activePlan.isComplete`, which `startCurrentStep`
leaves unchanged). -/
def chatSinglePlanUpdate (activePlan : Option TaskPlan) (toolCalls : List IToolCall)
    (content : String) : Option TaskPlan :=
  match activePlan with
  | none => none
  | some p =>
    if p.isComplete then some p
    else
      let p1 := TaskPlanTracker.startCurrentStep p
      if p1.isComplete then some p1
      else some (chatRunPlanUpdate p1 toolCalls content)

/-- `LlmMessage.role` values (`agent.service.ts`). -/
inductive LlmRole where
  | system
  | user
  | assistant
  | tool
deriving DecidableEq, Repr

/-- The `function` payload of an assistant tool call (`agent.service.ts`). -/
structure LlmFnCall where
  name : String
  arguments : String
deriving DecidableEq, Repr

/-- An assistant-requested tool call (`agent.service.ts`). -/
structure LlmToolCall where
  id : String
  function : LlmFnCall
deriving DecidableEq, Repr

/-- An LLM chat message (`agent.service.ts`): nullable content, optional
tool-call list, optional tool-call id. -/
structure LlmMessage where
  role : LlmRole
  content : Option String
  tool_calls : Option (List LlmToolCall)
  tool_call_id : Option String
deriving DecidableEq, Repr

/-- Context-size constants (`agent.service.ts`). -/
def CHARS_PER_TOKEN : Nat := 4

def MAX_CONTEXT_TOKENS : Nat := 120000

def MAX_CONTEXT_CHARS : Nat := MAX_CONTEXT_TOKENS * CHARS_PER_TOKEN

def KEEP_RECENT : Nat := 6

/-- `AgentService.estimateMessageChars` (`agent.service.ts`): sum of content
lengths plus tool-call name/argument lengths.  (The source guards the content
addition with the truthiness check `if (msg.content)`, which only skips the
empty string — whose length contributes 0 — so the sum is unchanged.)
Totals are JS numbers, modelled as `Int`. -/
def estimateStep (total : Int) (msg : LlmMessage) : Int :=
  let total := match msg.content with
    | some c => total + (c.length : Int)
    | none => total
  match msg.tool_calls with
  | some tcs =>
    tcs.foldl (fun t tc =>
      t + (tc.function.arguments.length : Int) + (tc.function.name.length : Int)) total
  | none => total

def estimateMessageChars (messages : List LlmMessage) : Int :=
  messages.foldl estimateStep 0

/-- The shrunken content installed by compression phase 1
(`agent.service.ts`): a 150-character prefix plus a marker carrying the
original length. -/
def shrinkToolContent (c : String) : String :=
  jsSlice c 150 ++ ("\n[...compressed — original " ++ toString c.length ++ " chars]")

/-- Phase 1 of `AgentService.compressMessagesIfNeeded` (`agent.service.ts`):
walk indices `1 ≤ i < shrinkBound` while still over the cap, shrinking every
tool-role message whose content exceeds 200 characters and keeping the
running total in sync.  (The source's `msg.content &&` truthiness guard is
subsumed by the `> 200` length check.) -/
def compressPhase1 (messages : List LlmMessage) (i shrinkBound : Nat) (totalChars : Int) :
    List LlmMessage × Int :=
  if _h : i < shrinkBound ∧ totalChars > (MAX_CONTEXT_CHARS : Int) then
    match messages.get? i with
    | some msg =>
      match msg.role, msg.content with
      | .tool, some c =>
        if c.length > 200 then
          let newContent := shrinkToolContent c
          let newMsg := { msg with content := some newContent }
          compressPhase1 (messages.set i newMsg) (i + 1) shrinkBound
            (totalChars - ((c.length : Int) - (newContent.length : Int)))
        else
          compressPhase1 messages (i + 1) shrinkBound totalChars
      | _, _ => compressPhase1 messages (i + 1) shrinkBound totalChars
    | none => compressPhase1 messages (i + 1) shrinkBound totalChars
  else (messages, totalChars)
termination_by shrinkBound - i
decreasing_by
  all_goals omega

/-- Phase 2 of `AgentService.compressMessagesIfNeeded` (`agent.service.ts`):
while more than `KEEP_RECENT + 1` messages remain and the total is over the
cap, splice out the message at index 1 (the oldest non-system message),
subtracting its content length from the running total.  (The `if
(removed.content)` truthiness guard only skips the empty string, which would
subtract 0.) -/
def compressPhase2 (messages : List LlmMessage) (totalChars : Int) :
    List LlmMessage × Int :=
  if h : messages.length > KEEP_RECENT + 1 ∧ totalChars > (MAX_CONTEXT_CHARS : Int) then
    match messages.get? 1 with
    | some removed =>
      let totalChars1 := match removed.content with
        | some c => totalChars - (c.length : Int)
        | none => totalChars
      compressPhase2 (messages.eraseIdx 1) totalChars1
    | none => (messages, totalChars)
  else (messages, totalChars)
termination_by messages.length
decreasing_by
  have h1 := h.1
  simp only [KEEP_RECENT] at h1
  simp only [List.length_eraseIdx]
  split <;> omega

/-- `AgentService.compressMessagesIfNeeded` (`agent.service.ts`), as a pure
function on the message list (the source mutates `messages` in place): no-op
at or under `MAX_CONTEXT_CHARS`; otherwise phase 1 shrinks old oversized
tool results (indices `1..shrinkBound-1`, `shrinkBound = max(1, length -
KEEP_RECENT)`), then, if still over the cap, phase 2 drops the oldest
non-system messages. -/
def compressMessagesIfNeeded (messages : List LlmMessage) : List LlmMessage :=
  let totalChars := estimateMessageChars messages
  if totalChars ≤ (MAX_CONTEXT_CHARS : Int) then messages
  else
    let shrinkBound := max 1 (messages.length - KEEP_RECENT)
    let p1 := compressPhase1 messages 1 shrinkBound totalChars
    if p1.2 ≤ (MAX_CONTEXT_CHARS : Int) then p1.1
    else (compressPhase2 p1.1 p1.2).1

/-! ### The tracker's structural invariant

Reachable plans (a `generateTaskPlan` result followed by tracker transitions)
keep dense step ids, a `currentStep` pointing at the first non-terminal step
while the plan is active, and a fully processed step list once complete. -/

/-- Step ids are dense from `k + 1` in array order. -/
def stepIdsFrom (k : Nat) (l : List TaskStep) : Prop :=
  ∀ i s, l.get? i = some s → s.id = k + i + 1

theorem stepIdsFrom_cons {k : Nat} {s : TaskStep} {l : List TaskStep}
    (h : stepIdsFrom k (s :: l)) : s.id = k + 1 ∧ stepIdsFrom (k + 1) l := by
  refine ⟨by have := h 0 s rfl; omega, fun i t ht => ?_⟩
  have := h (i + 1) t ht
  omega

/-- On a list with dense ids, updating the first step whose id is `k + j + 1`
updates exactly position `j`. -/
theorem updFirst_eq_set {l : List TaskStep} {k j : Nat} {f : TaskStep → TaskStep} {s : TaskStep}
    (hd : stepIdsFrom k l) (hs : l.get? j = some s) :
    updFirst l (k + j + 1) f = l.set j (f s) := by
  induction l generalizing k j with
  | nil => simp at hs
  | cons a rest ih =>
    obtain ⟨ha, hrest⟩ := stepIdsFrom_cons hd
    cases j with
    | zero =>
      have has : a = s := by simpa using hs
      subst has
      simp [updFirst, ha]
    | succ j =>
      have hne : ¬a.id = k + (j + 1) + 1 := by omega
      have hrec := ih (k := k + 1) (j := j) hrest (by simpa using hs)
      have harg : k + (j + 1) + 1 = (k + 1) + j + 1 := by omega
      simp only [updFirst, if_neg hne, List.set]
      rw [harg, hrec]

/-- Replacing a step with one of equal id preserves dense ids. -/
theorem stepIdsFrom_set {k j : Nat} {l : List TaskStep} {s s' : TaskStep}
    (hd : stepIdsFrom k l) (hs : l.get? j = some s) (hid : s'.id = s.id) :
    stepIdsFrom k (l.set j s') := by
  intro i t ht
  by_cases hij : j = i
  · subst hij
    have hlt : j < l.length := by
      have := List.get?_eq_some.mp hs
      exact this.1
    rw [List.get?_set_eq_of_lt _ hlt] at ht
    cases ht
    rw [hid]
    exact hd j s hs
  · rw [List.get?_set_ne _ _ hij] at ht
    exact hd i t ht

theorem findPending_eq_none {l : List TaskStep} (h : ∀ s ∈ l, s.status ≠ .pending) :
    findPending l = none := by
  simp only [findPending, List.find?_eq_none, decide_eq_true_eq]
  exact h

theorem findPending_first {l : List TaskStep} {m : Nat} {s : TaskStep}
    (hbefore : ∀ i t, i < m → l.get? i = some t → t.status ≠ .pending)
    (hm : l.get? m = some s) (hs : s.status = .pending) :
    findPending l = some s := by
  induction l generalizing m with
  | nil => simp at hm
  | cons a rest ih =>
    cases m with
    | zero =>
      have has : a = s := by simpa using hm
      subst has
      simp [findPending, List.find?_cons_of_pos, hs]
    | succ m =>
      have hane : a.status ≠ .pending := hbefore 0 a (Nat.succ_pos m) rfl
      have : findPending rest = some s :=
        ih (fun i t hi ht => hbefore (i + 1) t (by omega) ht) hm
      simpa [findPending, List.find?_cons_of_neg, hane] using this

/-- The structural invariant on tracker-reachable plans. -/
structure PlanInv (p : TaskPlan) : Prop where
  dense : stepIdsFrom 0 p.steps
  ne : p.steps ≠ []
  lb : 1 ≤ p.currentStep
  ub : p.currentStep ≤ p.steps.length
  pref : ∀ i s, p.steps.get? i = some s → i + 1 < p.currentStep →
    s.status ≠ .pending ∧ s.status ≠ .inProgress
  suff : p.isComplete = false → ∀ i s, p.steps.get? i = some s → p.currentStep < i + 1 →
    s.status = .pending
  cur : p.isComplete = false → ∀ s, p.steps.get? (p.currentStep - 1) = some s →
    s.status = .pending ∨ s.status = .inProgress
  comp : p.isComplete = true → p.currentStep = p.steps.length ∧
    ∀ s ∈ p.steps, s.status ≠ .pending

/-- Under the invariant, the current step exists. -/
theorem PlanInv.cur_get {p : TaskPlan} (h : PlanInv p) :
    ∃ s, p.steps.get? (p.currentStep - 1) = some s := by
  have hlb := h.lb
  have hub := h.ub
  have hlt : p.currentStep - 1 < p.steps.length := by omega
  exact ⟨_, List.get?_eq_get hlt⟩

/-- Under the invariant, the tracker's find-and-mutate update touches exactly
the position `currentStep - 1`. -/
theorem updFirst_current {p : TaskPlan} (h : PlanInv p) {s : TaskStep}
    (hs : p.steps.get? (p.currentStep - 1) = some s) (f : TaskStep → TaskStep) :
    updFirst p.steps p.currentStep f = p.steps.set (p.currentStep - 1) (f s) := by
  have hlb := h.lb
  have heq := updFirst_eq_set (k := 0) (j := p.currentStep - 1) (f := f) h.dense hs
  have harg : 0 + (p.currentStep - 1) + 1 = p.currentStep := by omega
  rw [harg] at heq
  exact heq

/-- Invariant preservation for the three advancing transitions, parameterised
by the step updater `f` (which must keep the id and set a terminal status). -/
theorem planInv_advance {p : TaskPlan} (h : PlanInv p) (f : TaskStep → TaskStep)
    (hid : ∀ s, (f s).id = s.id)
    (hterm : ∀ s, (f s).status ≠ .pending ∧ (f s).status ≠ .inProgress) :
    PlanInv (advancePlan p (updFirst p.steps p.currentStep f)) := by
  obtain ⟨s0, hs0⟩ := h.cur_get
  have hlb := h.lb
  have hub := h.ub
  rw [updFirst_current h hs0 f]
  have hc1 : p.currentStep - 1 < p.steps.length := by omega
  have hlen : (p.steps.set (p.currentStep - 1) (f s0)).length = p.steps.length := by simp
  have hget_cur : (p.steps.set (p.currentStep - 1) (f s0)).get? (p.currentStep - 1)
      = some (f s0) := List.get?_set_eq_of_lt _ hc1
  have hget_other : ∀ i, i ≠ p.currentStep - 1 →
      (p.steps.set (p.currentStep - 1) (f s0)).get? i = p.steps.get? i := by
    intro i hi
    exact List.get?_set_ne _ _ (fun hh => hi hh.symm)
  have hdense' : stepIdsFrom 0 (p.steps.set (p.currentStep - 1) (f s0)) :=
    stepIdsFrom_set h.dense hs0 (hid s0)
  have hnoact_le : ∀ i t, i ≤ p.currentStep - 1 →
      (p.steps.set (p.currentStep - 1) (f s0)).get? i = some t →
      t.status ≠ .pending ∧ t.status ≠ .inProgress := by
    intro i t hi ht
    rcases Nat.lt_or_ge i (p.currentStep - 1) with hlt | hge
    · rw [hget_other i (by omega)] at ht
      exact h.pref i t ht (by omega)
    · have hieq : i = p.currentStep - 1 := by omega
      subst hieq
      rw [hget_cur] at ht
      cases ht
      exact hterm s0
  have hne' : (p.steps.set (p.currentStep - 1) (f s0)) ≠ [] := by
    have : 0 < (p.steps.set (p.currentStep - 1) (f s0)).length := by
      rw [hlen]; omega
    exact List.ne_nil_of_length_pos this
  cases hC : p.isComplete with
  | false =>
    rcases Nat.lt_or_ge p.currentStep p.steps.length with hcn | hcn
    · -- the suffix starts with a pending step: the plan advances by one
      obtain ⟨s1, hs1⟩ : ∃ s1, p.steps.get? p.currentStep = some s1 :=
        ⟨_, List.get?_eq_get hcn⟩
      have hs1p : s1.status = .pending := h.suff hC p.currentStep s1 hs1 (by omega)
      have hs1' : (p.steps.set (p.currentStep - 1) (f s0)).get? p.currentStep = some s1 := by
        rw [hget_other p.currentStep (by omega)]; exact hs1
      have hfind : findPending (p.steps.set (p.currentStep - 1) (f s0)) = some s1 :=
        findPending_first (m := p.currentStep)
          (fun i t hi ht => (hnoact_le i t (by omega) ht).1) hs1' hs1p
      have hs1id : s1.id = p.currentStep + 1 := by
        have := h.dense p.currentStep s1 hs1; omega
      simp only [advancePlan, hfind]
      refine ⟨hdense', hne', by simp [hs1id], by simp [hs1id]; omega, ?_, ?_, ?_, ?_⟩
      · intro i s hsi hip
        simp only [hs1id] at hip
        exact hnoact_le i s (by omega) hsi
      · intro _ i s hsi hip
        simp only [hs1id] at hip
        rw [hget_other i (by omega)] at hsi
        exact h.suff hC i s hsi (by omega)
      · intro _ s hsi
        simp only [hs1id] at hsi
        have : p.currentStep + 1 - 1 = p.currentStep := by omega
        rw [this, hs1'] at hsi
        cases hsi
        exact Or.inl hs1p
      · intro hcomp
        simp only [hC] at hcomp
        cases hcomp
    · -- no pending step remains: the plan becomes complete
      have hceq : p.currentStep = p.steps.length := by omega
      have hfind : findPending (p.steps.set (p.currentStep - 1) (f s0)) = none := by
        apply findPending_eq_none
        intro t ht
        obtain ⟨i, hi⟩ := List.mem_iff_get?.mp ht
        have hilen : i < (p.steps.set (p.currentStep - 1) (f s0)).length := by
          rw [List.get?_eq_some] at hi
          exact hi.1
        exact (hnoact_le i t (by omega) hi).1
      simp only [advancePlan, hfind]
      refine ⟨hdense', hne', by simpa using hlb, by simp; omega, ?_, ?_, ?_, ?_⟩
      · intro i s hsi hip
        have hip2 : i + 1 < p.currentStep := hip
        exact hnoact_le i s (by omega) hsi
      · intro hfalse
        cases hfalse
      · intro hfalse
        cases hfalse
      · intro _
        refine ⟨by simp; omega, ?_⟩
        intro t ht
        obtain ⟨i, hi⟩ := List.mem_iff_get?.mp ht
        have hilen : i < (p.steps.set (p.currentStep - 1) (f s0)).length := by
          rw [List.get?_eq_some] at hi
          exact hi.1
        exact (hnoact_le i t (by omega) hi).1
  | true =>
    obtain ⟨hcn, hnp⟩ := h.comp hC
    have hnopend' : ∀ t ∈ (p.steps.set (p.currentStep - 1) (f s0)), t.status ≠ .pending := by
      intro t ht
      obtain ⟨i, hi⟩ := List.mem_iff_get?.mp ht
      by_cases hieq : i = p.currentStep - 1
      · subst hieq
        rw [hget_cur] at hi
        cases hi
        exact (hterm s0).1
      · rw [hget_other i hieq] at hi
        exact hnp t (List.get?_mem hi)
    have hfind : findPending (p.steps.set (p.currentStep - 1) (f s0)) = none :=
      findPending_eq_none hnopend'
    simp only [advancePlan, hfind]
    refine ⟨hdense', hne', by simpa using hlb, by simp; omega, ?_, ?_, ?_, ?_⟩
    · intro i s hsi hip
      by_cases hieq : i = p.currentStep - 1
      · subst hieq
        rw [hget_cur] at hsi
        cases hsi
        exact hterm s0
      · rw [hget_other i hieq] at hsi
        exact h.pref i s hsi hip
    · intro hfalse
      cases hfalse
    · intro hfalse
      cases hfalse
    · intro _
      exact ⟨by simp; omega, hnopend'⟩

/-- Invariant preservation for `startCurrentStep`. -/
theorem planInv_start {p : TaskPlan} (h : PlanInv p) :
    PlanInv (TaskPlanTracker.startCurrentStep p) := by
  obtain ⟨s0, hs0⟩ := h.cur_get
  have hlb := h.lb
  have hub := h.ub
  unfold TaskPlanTracker.startCurrentStep
  rw [updFirst_current h hs0 _]
  have hc1 : p.currentStep - 1 < p.steps.length := by omega
  have hget_cur : (p.steps.set (p.currentStep - 1) { s0 with status := .inProgress }).get?
      (p.currentStep - 1) = some { s0 with status := .inProgress } :=
    List.get?_set_eq_of_lt _ hc1
  have hget_other : ∀ i, i ≠ p.currentStep - 1 →
      (p.steps.set (p.currentStep - 1) { s0 with status := .inProgress }).get? i
        = p.steps.get? i := by
    intro i hi
    exact List.get?_set_ne _ _ (fun hh => hi hh.symm)
  refine ⟨stepIdsFrom_set h.dense hs0 rfl, ?_, hlb, by simpa using hub, ?_, ?_, ?_, ?_⟩
  · have : 0 < (p.steps.set (p.currentStep - 1) { s0 with status := .inProgress }).length := by
      simp; omega
    exact List.ne_nil_of_length_pos this
  · intro i s hsi hip
    have hip2 : i + 1 < p.currentStep := hip
    rw [hget_other i (by omega)] at hsi
    exact h.pref i s hsi hip2
  · intro hC i s hsi hip
    have hip2 : p.currentStep < i + 1 := hip
    rw [hget_other i (by omega)] at hsi
    exact h.suff hC i s hsi hip2
  · intro hC s hsi
    rw [hget_cur] at hsi
    cases hsi
    exact Or.inr rfl
  · intro hC
    obtain ⟨hcn, hnp⟩ := h.comp hC
    refine ⟨by simp; omega, ?_⟩
    intro t ht
    obtain ⟨i, hi⟩ := List.mem_iff_get?.mp ht
    by_cases hieq : i = p.currentStep - 1
    · subst hieq
      rw [hget_cur] at hi
      cases hi
      simp
    · rw [hget_other i hieq] at hi
      exact hnp t (List.get?_mem hi)

/-- Invariant preservation for `completeCurrentStep`. -/
theorem planInv_complete {p : TaskPlan} (h : PlanInv p) (r : Option String) :
    PlanInv (TaskPlanTracker.completeCurrentStep p r) :=
  planInv_advance h _ (fun _ => rfl) (fun _ => by constructor <;> simp)

/-- Invariant preservation for `failCurrentStep`. -/
theorem planInv_fail {p : TaskPlan} (h : PlanInv p) (e : String) :
    PlanInv (TaskPlanTracker.failCurrentStep p e) :=
  planInv_advance h _ (fun _ => rfl) (fun _ => by constructor <;> simp)

/-- Invariant preservation for `skipCurrentStep`. -/
theorem planInv_skip {p : TaskPlan} (h : PlanInv p) (r : Option String) :
    PlanInv (TaskPlanTracker.skipCurrentStep p r) :=
  planInv_advance h _ (fun _ => rfl) (fun _ => by constructor <;> simp)

/-- Invariant preservation for every tracker transition. -/
theorem planInv_applyTrans (t : PlanTrans) {p : TaskPlan} (h : PlanInv p) :
    PlanInv (applyTrans t p) := by
  cases t with
  | start => exact planInv_start h
  | complete r => exact planInv_complete h r
  | fail e => exact planInv_fail h e
  | skip r => exact planInv_skip h r

/-- Invariant preservation for transition sequences. -/
theorem planInv_applyTransList (ts : List PlanTrans) {p : TaskPlan} (h : PlanInv p) :
    PlanInv (applyTransList ts p) := by
  induction ts generalizing p with
  | nil => exact h
  | cons t ts ih => exact ih (planInv_applyTrans t h)

/-- Shape of every plan emitted by `generateTaskPlan`: dense ids from 1, all
steps `pending`, `currentStep = 1`, `isComplete = false`. -/
theorem generateTaskPlan_spec {o : PlanGenOutcome} {p : TaskPlan}
    (h : generateTaskPlan o = some p) :
    p.currentStep = 1 ∧ p.isComplete = false ∧ p.steps ≠ [] ∧
      ∀ i s, p.steps.get? i = some s → s.id = i + 1 ∧ s.status = .pending := by
  cases o with
  | parsed goal parsedSteps =>
    by_cases hps : parsedSteps = []
    · simp [generateTaskPlan, hps] at h
    · simp only [generateTaskPlan, if_neg hps] at h
      cases h
      refine ⟨rfl, rfl, ?_, ?_⟩
      · simp only [ne_eq, List.mapIdx_eq_nil_iff]
        exact hps
      · intro i s hsi
        have hlen : i < parsedSteps.length := by
          have := (List.get?_eq_some.mp hsi).1
          simpa using this
        have hget := List.get?_eq_get (l := parsedSteps.mapIdx fun i s =>
          TaskStep.mk (i + 1) s.title s.description .pending
            (match s.agentType with
             | some a => parseAgentType a
             | none => none) none none) (n := i) (by simpa using hlen)
        rw [hget] at hsi
        cases hsi
        rw [List.get_mapIdx _ _ _ hlen]
        exact ⟨rfl, rfl⟩
  | noApiKey => simp [generateTaskPlan] at h
  | thrown => simp [generateTaskPlan] at h
  | httpError s => simp [generateTaskPlan] at h
  | emptyContent => simp [generateTaskPlan] at h
  | noJsonObject => simp [generateTaskPlan] at h

/-- Every `generateTaskPlan` result satisfies the tracker invariant. -/
theorem planInv_generate {o : PlanGenOutcome} {p : TaskPlan}
    (h : generateTaskPlan o = some p) : PlanInv p := by
  obtain ⟨hc, hico, hne, hsteps⟩ := generateTaskPlan_spec h
  have hlen : 0 < p.steps.length := List.length_pos.mpr hne
  refine ⟨fun i s hsi => by have := (hsteps i s hsi).1; omega, hne, by omega,
    by omega, ?_, ?_, ?_, ?_⟩
  · intro i s hsi hip
    rw [hc] at hip
    omega
  · intro _ i s hsi _
    exact (hsteps i s hsi).2
  · intro _ s hsi
    exact Or.inl (hsteps _ s hsi).2
  · intro hcomp
    rw [hico] at hcomp
    cases hcomp

/-- Under the invariant, any `in-progress` step sits at position
`currentStep - 1`. -/
theorem PlanInv.inProgress_index {p : TaskPlan} (h : PlanInv p) {i : Nat} {s : TaskStep}
    (hsi : p.steps.get? i = some s) (hst : s.status = .inProgress) :
    i = p.currentStep - 1 := by
  have hlb := h.lb
  by_contra hne
  rcases Nat.lt_or_ge i (p.currentStep - 1) with hlt | hge
  · exact (h.pref i s hsi (by omega)).2 hst
  · cases hC : p.isComplete with
    | false =>
      have h1 := h.suff hC i s hsi (by omega)
      simp [hst] at h1
    | true =>
      obtain ⟨hcn, -⟩ := h.comp hC
      have hlen := (List.get?_eq_some.mp hsi).1
      omega

/-- A list has at most one element satisfying `q` when all such elements sit
at one index. -/
theorem countP_le_one_of_unique_index {α : Type} (l : List α) (q : α → Bool)
    (h : ∀ i j a b, l.get? i = some a → l.get? j = some b → q a → q b → i = j) :
    l.countP q ≤ 1 := by
  induction l with
  | nil => simp
  | cons x xs ih =>
    by_cases hx : q x
    · have hxs : xs.countP q = 0 := by
        rw [List.countP_eq_zero]
        intro a ha hqa
        obtain ⟨j, hj⟩ := List.mem_iff_get?.mp ha
        have := h 0 (j + 1) x a rfl hj hx hqa
        omega
      simp [List.countP_cons, hx, hxs]
    · have hrec := ih (fun i j a b hi hj hqa hqb => by
        have := h (i + 1) (j + 1) a b hi hj hqa hqb
        omega)
      simpa [List.countP_cons, hx] using hrec

/-- Under the invariant, at most one step is `in-progress`. -/
theorem planInv_atMostOneInProgress {p : TaskPlan} (h : PlanInv p) :
    (p.steps.filter (fun s => s.status = .inProgress)).length ≤ 1 := by
  rw [← List.countP_eq_length_filter]
  apply countP_le_one_of_unique_index
  intro i j a b hi hj hqa hqb
  have ha : a.status = .inProgress := by simpa using hqa
  have hb : b.status = .inProgress := by simpa using hqb
  rw [h.inProgress_index hi ha, h.inProgress_index hj hb]

/-- Under the invariant, `currentStep` names the lowest-id `pending` or
`in-progress` step, unless the plan is complete. -/
theorem planInv_currentLowest {p : TaskPlan} (h : PlanInv p) :
    (∃ s ∈ p.steps, s.id = p.currentStep ∧
      (s.status = .pending ∨ s.status = .inProgress) ∧
      ∀ t ∈ p.steps, (t.status = .pending ∨ t.status = .inProgress) → s.id ≤ t.id)
    ∨ p.isComplete = true := by
  have hlb := h.lb
  cases hC : p.isComplete with
  | true => exact Or.inr rfl
  | false =>
    obtain ⟨s0, hs0⟩ := h.cur_get
    have hid : s0.id = p.currentStep := by
      have := h.dense _ s0 hs0
      omega
    refine Or.inl ⟨s0, List.get?_mem hs0, hid, h.cur hC s0 hs0, ?_⟩
    intro t ht hact
    obtain ⟨j, hj⟩ := List.mem_iff_get?.mp ht
    have hjid : t.id = j + 1 := by have := h.dense j t hj; omega
    rcases Nat.lt_or_ge j (p.currentStep - 1) with hlt | hge
    · obtain ⟨hnp, hni⟩ := h.pref j t hj (by omega)
      rcases hact with hp | hi
      · exact absurd hp hnp
      · exact absurd hi hni
    · omega

/-- Readiness of a plan for the orchestrator loop at position `idx`:
the invariant holds, everything before `idx` is already non-pending, and no
step is `in-progress` (true of every plan the service hands to
`executePlan`: fresh plans are all-`pending`, and persisted plans are always
saved after an advancing transition). -/
structure ExecReady (plan : TaskPlan) (idx : Nat) : Prop where
  inv : PlanInv plan
  prefDone : ∀ j t, j < idx → plan.steps.get? j = some t → t.status ≠ .pending
  noInProgress : ∀ t ∈ plan.steps, t.status ≠ .inProgress

/-- When the loop reaches a pending step at position `idx`, the plan is
active and its `currentStep` is exactly `idx + 1`. -/
theorem ExecReady.current_eq {plan : TaskPlan} {idx : Nat} {s : TaskStep}
    (h : ExecReady plan idx) (hidx : plan.steps.get? idx = some s)
    (hpend : s.status = .pending) :
    plan.isComplete = false ∧ plan.currentStep = idx + 1 := by
  have hlb := h.inv.lb
  have hC : plan.isComplete = false := by
    cases hCc : plan.isComplete
    · rfl
    · obtain ⟨-, hnp⟩ := h.inv.comp hCc
      exact absurd hpend (hnp s (List.get?_mem hidx))
  refine ⟨hC, ?_⟩
  have h1 : ¬(idx + 1 < plan.currentStep) := by
    intro hlt
    exact (h.inv.pref idx s hidx hlt).1 hpend
  obtain ⟨s0, hs0⟩ := h.inv.cur_get
  have hs0p : s0.status = .pending := by
    rcases h.inv.cur hC s0 hs0 with hp | hi
    · exact hp
    · exact absurd hi (h.noInProgress s0 (List.get?_mem hs0))
  have h2 : ¬(plan.currentStep - 1 < idx) := by
    intro hlt
    exact h.prefDone _ s0 hlt hs0 hs0p
  omega

/-- `startCurrentStep` at a synchronised position updates exactly that
position. -/
theorem startCurrentStep_steps_at {plan : TaskPlan} {idx : Nat} {s : TaskStep}
    (hinv : PlanInv plan) (hcur : plan.currentStep = idx + 1)
    (hidx : plan.steps.get? idx = some s) :
    (TaskPlanTracker.startCurrentStep plan).steps
      = plan.steps.set idx { s with status := .inProgress } := by
  have hci : plan.currentStep - 1 = idx := by omega
  have hs : plan.steps.get? (plan.currentStep - 1) = some s := by rw [hci]; exact hidx
  show updFirst plan.steps plan.currentStep _ = _
  rw [updFirst_current hinv hs _, hci]

/-- `failCurrentStep` at a synchronised position updates exactly that
position. -/
theorem failCurrentStep_steps_at {plan : TaskPlan} {idx : Nat} {s : TaskStep}
    (hinv : PlanInv plan) (hcur : plan.currentStep = idx + 1)
    (hidx : plan.steps.get? idx = some s) (e : String) :
    (TaskPlanTracker.failCurrentStep plan e).steps
      = plan.steps.set idx { s with status := .failed, error := some e } := by
  have hci : plan.currentStep - 1 = idx := by omega
  have hs : plan.steps.get? (plan.currentStep - 1) = some s := by rw [hci]; exact hidx
  unfold TaskPlanTracker.failCurrentStep TaskPlanTracker.failSteps
  rw [advancePlan_steps, updFirst_current hinv hs _, hci]

/-- `completeCurrentStep` after `startCurrentStep`, at a synchronised
position, updates exactly that position (the in-progress marking is
overwritten by the completion). -/
theorem completeAfterStart_steps {plan : TaskPlan} {idx : Nat} {s : TaskStep}
    (hinv : PlanInv plan) (hcur : plan.currentStep = idx + 1)
    (hidx : plan.steps.get? idx = some s) (r : Option String) :
    (TaskPlanTracker.completeCurrentStep (TaskPlanTracker.startCurrentStep plan) r).steps
      = plan.steps.set idx { s with status := .completed, result := r } := by
  have hlt : idx < plan.steps.length := by
    have := (List.get?_eq_some.mp hidx).1
    exact this
  have hstart := startCurrentStep_steps_at hinv hcur hidx
  have hinv1 := planInv_start hinv
  have hcur1 : (TaskPlanTracker.startCurrentStep plan).currentStep = idx + 1 := hcur
  have hci : (TaskPlanTracker.startCurrentStep plan).currentStep - 1 = idx := by
    rw [hcur1]
    omega
  have hs1 : (TaskPlanTracker.startCurrentStep plan).steps.get?
      ((TaskPlanTracker.startCurrentStep plan).currentStep - 1)
      = some { s with status := .inProgress } := by
    rw [hci, hstart]
    exact List.get?_set_eq_of_lt _ (by simpa using hlt)
  unfold TaskPlanTracker.completeCurrentStep TaskPlanTracker.completeSteps
  rw [advancePlan_steps, updFirst_current hinv1 hs1 _, hci, hstart, List.set_set]

/-- `failCurrentStep` after `startCurrentStep`, at a synchronised position,
updates exactly that position. -/
theorem failAfterStart_steps {plan : TaskPlan} {idx : Nat} {s : TaskStep}
    (hinv : PlanInv plan) (hcur : plan.currentStep = idx + 1)
    (hidx : plan.steps.get? idx = some s) (e : String) :
    (TaskPlanTracker.failCurrentStep (TaskPlanTracker.startCurrentStep plan) e).steps
      = plan.steps.set idx { s with status := .failed, error := some e } := by
  have hlt : idx < plan.steps.length := by
    have := (List.get?_eq_some.mp hidx).1
    exact this
  have hstart := startCurrentStep_steps_at hinv hcur hidx
  have hinv1 := planInv_start hinv
  have hcur1 : (TaskPlanTracker.startCurrentStep plan).currentStep = idx + 1 := hcur
  have hci : (TaskPlanTracker.startCurrentStep plan).currentStep - 1 = idx := by
    rw [hcur1]
    omega
  have hs1 : (TaskPlanTracker.startCurrentStep plan).steps.get?
      ((TaskPlanTracker.startCurrentStep plan).currentStep - 1)
      = some { s with status := .inProgress } := by
    rw [hci, hstart]
    exact List.get?_set_eq_of_lt _ (by simpa using hlt)
  unfold TaskPlanTracker.failCurrentStep TaskPlanTracker.failSteps
  rw [advancePlan_steps, updFirst_current hinv1 hs1 _, hci, hstart, List.set_set]

/-- Readiness advances across one processed step whose new status is
terminal. -/
theorem ExecReady.advanceIdx {plan : TaskPlan} {idx : Nat} {q : TaskPlan} {s' : TaskStep}
    (h : ExecReady plan idx) (hq : PlanInv q)
    (hqs : q.steps = plan.steps.set idx s')
    (hs' : s'.status ≠ .pending ∧ s'.status ≠ .inProgress) :
    ExecReady q (idx + 1) := by
  refine ⟨hq, ?_, ?_⟩
  · intro j t hj ht
    rw [hqs] at ht
    by_cases hje : j = idx
    · subst hje
      have hjlt : j < plan.steps.length := by
        have := (List.get?_eq_some.mp ht).1
        simpa using this
      rw [List.get?_set_eq_of_lt _ hjlt] at ht
      cases ht
      exact hs'.1
    · rw [List.get?_set_ne _ _ (fun hh => hje hh.symm)] at ht
      exact h.prefDone j t (by omega) ht
  · intro t ht
    rw [hqs] at ht
    obtain ⟨j, hj⟩ := List.mem_iff_get?.mp ht
    by_cases hje : j = idx
    · subst hje
      have hjlt : j < plan.steps.length := by
        have := (List.get?_eq_some.mp hj).1
        simpa using this
      rw [List.get?_set_eq_of_lt _ hjlt] at hj
      cases hj
      exact hs'.2
    · rw [List.get?_set_ne _ _ (fun hh => hje hh.symm)] at hj
      exact h.noInProgress t (List.get?_mem hj)

/-! Branch equations for `executeSteps`. -/

theorem executeSteps_stop {avail : AgentType → Bool} {baseType : AgentType}
    {outcomes : Nat → StepOutcome} {plan : TaskPlan} {idx : Nat} {accT : List IToolCall}
    {accA : List PendingApproval} {accR : List StepResult}
    (hge : ¬(idx < plan.steps.length)) :
    executeSteps avail baseType outcomes plan idx accT accA accR
      = OrchestratorResult.mk plan accT accA accR := by
  rw [executeSteps]
  simp only [dif_neg hge]

theorem executeSteps_skip {avail : AgentType → Bool} {baseType : AgentType}
    {outcomes : Nat → StepOutcome} {plan : TaskPlan} {idx : Nat} {accT : List IToolCall}
    {accA : List PendingApproval} {accR : List StepResult}
    (hlt : idx < plan.steps.length)
    (hnp : (plan.steps.get ⟨idx, hlt⟩).status ≠ .pending) :
    executeSteps avail baseType outcomes plan idx accT accA accR
      = executeSteps avail baseType outcomes plan (idx + 1) accT accA accR := by
  rw [executeSteps]
  simp only [dif_pos hlt, if_pos hnp]

theorem executeSteps_noAgent {avail : AgentType → Bool} {baseType : AgentType}
    {outcomes : Nat → StepOutcome} {plan : TaskPlan} {idx : Nat} {accT : List IToolCall}
    {accA : List PendingApproval} {accR : List StepResult}
    (hlt : idx < plan.steps.length)
    (hp : (plan.steps.get ⟨idx, hlt⟩).status = .pending)
    (hav : avail ((plan.steps.get ⟨idx, hlt⟩).agentType.getD baseType) = false) :
    executeSteps avail baseType outcomes plan idx accT accA accR
      = executeSteps avail baseType outcomes
          (TaskPlanTracker.failCurrentStep plan
            ("No agent available for type: "
              ++ ((plan.steps.get ⟨idx, hlt⟩).agentType.getD baseType).str))
          (idx + 1) accT accA
          (accR ++ [StepResult.mk (plan.steps.get ⟨idx, hlt⟩) "" [] [] false
            (some ("No agent for type: "
              ++ ((plan.steps.get ⟨idx, hlt⟩).agentType.getD baseType).str))]) := by
  rw [executeSteps]
  simp only [dif_pos hlt]
  rw [if_neg (show ¬((plan.steps.get ⟨idx, hlt⟩).status ≠ TaskStatus.pending) by
        simp only [ne_eq, not_not]; exact hp),
      if_pos hav]

theorem executeSteps_success_pause {avail : AgentType → Bool} {baseType : AgentType}
    {outcomes : Nat → StepOutcome} {plan : TaskPlan} {idx : Nat} {accT : List IToolCall}
    {accA : List PendingApproval} {accR : List StepResult}
    {content : String} {tcs : List IToolCall} {appr : List PendingApproval}
    (hlt : idx < plan.steps.length)
    (hp : (plan.steps.get ⟨idx, hlt⟩).status = .pending)
    (hav : ¬(avail ((plan.steps.get ⟨idx, hlt⟩).agentType.getD baseType) = false))
    (ho : outcomes idx = .success content tcs appr) (happ : appr ≠ []) :
    executeSteps avail baseType outcomes plan idx accT accA accR
      = OrchestratorResult.mk
          (TaskPlanTracker.completeCurrentStep (TaskPlanTracker.startCurrentStep plan)
            (some (jsSlice content 200)))
          (accT ++ tcs) (accA ++ appr)
          (accR ++ [StepResult.mk (plan.steps.get ⟨idx, hlt⟩) content tcs appr true none]) := by
  rw [executeSteps]
  simp only [dif_pos hlt]
  rw [if_neg (show ¬((plan.steps.get ⟨idx, hlt⟩).status ≠ TaskStatus.pending) by
        simp only [ne_eq, not_not]; exact hp),
      if_neg hav]
  simp only [ho]
  rw [if_pos happ]

theorem executeSteps_success_continue {avail : AgentType → Bool} {baseType : AgentType}
    {outcomes : Nat → StepOutcome} {plan : TaskPlan} {idx : Nat} {accT : List IToolCall}
    {accA : List PendingApproval} {accR : List StepResult}
    {content : String} {tcs : List IToolCall}
    (hlt : idx < plan.steps.length)
    (hp : (plan.steps.get ⟨idx, hlt⟩).status = .pending)
    (hav : ¬(avail ((plan.steps.get ⟨idx, hlt⟩).agentType.getD baseType) = false))
    (ho : outcomes idx = .success content tcs []) :
    executeSteps avail baseType outcomes plan idx accT accA accR
      = executeSteps avail baseType outcomes
          (TaskPlanTracker.completeCurrentStep (TaskPlanTracker.startCurrentStep plan)
            (some (jsSlice content 200)))
          (idx + 1) (accT ++ tcs) (accA ++ [])
          (accR ++ [StepResult.mk (plan.steps.get ⟨idx, hlt⟩) content tcs [] true none]) := by
  rw [executeSteps]
  simp only [dif_pos hlt]
  rw [if_neg (show ¬((plan.steps.get ⟨idx, hlt⟩).status ≠ TaskStatus.pending) by
        simp only [ne_eq, not_not]; exact hp),
      if_neg hav]
  simp only [ho]
  rw [if_neg (show ¬(([] : List PendingApproval) ≠ []) by simp)]

theorem executeSteps_thrown {avail : AgentType → Bool} {baseType : AgentType}
    {outcomes : Nat → StepOutcome} {plan : TaskPlan} {idx : Nat} {accT : List IToolCall}
    {accA : List PendingApproval} {accR : List StepResult} {e : String}
    (hlt : idx < plan.steps.length)
    (hp : (plan.steps.get ⟨idx, hlt⟩).status = .pending)
    (hav : ¬(avail ((plan.steps.get ⟨idx, hlt⟩).agentType.getD baseType) = false))
    (ho : outcomes idx = .thrown e) :
    executeSteps avail baseType outcomes plan idx accT accA accR
      = executeSteps avail baseType outcomes
          (TaskPlanTracker.failCurrentStep (TaskPlanTracker.startCurrentStep plan) e)
          (idx + 1) accT accA
          (accR ++ [StepResult.mk (plan.steps.get ⟨idx, hlt⟩) "" [] [] false (some e)]) := by
  rw [executeSteps]
  simp only [dif_pos hlt]
  rw [if_neg (show ¬((plan.steps.get ⟨idx, hlt⟩).status ≠ TaskStatus.pending) by
        simp only [ne_eq, not_not]; exact hp),
      if_neg hav]
  simp only [ho]

/-- Pause analysis of the orchestrator loop: starting from a ready position
with no approvals accumulated, a non-empty final approval list can only come
from the success outcome of one step at a position `i ≥ idx`; the loop stops
right there, the step at `i` ends `completed`, and every later step is still
`pending`. -/
theorem executeSteps_pause_spec (avail : AgentType → Bool) (baseType : AgentType)
    (outcomes : Nat → StepOutcome) :
    ∀ (fuel : Nat) (plan : TaskPlan) (idx : Nat) (accT : List IToolCall)
      (accR : List StepResult),
      plan.steps.length - idx = fuel →
      ExecReady plan idx →
      (executeSteps avail baseType outcomes plan idx accT [] accR).pendingApprovals ≠ [] →
      ∃ i content tcs appr, idx ≤ i ∧
        outcomes i = .success content tcs appr ∧ appr ≠ [] ∧
        (executeSteps avail baseType outcomes plan idx accT [] accR).pendingApprovals = appr ∧
        ((executeSteps avail baseType outcomes plan idx accT [] accR).plan.steps.get? i).map
          (fun t => t.status) = some .completed ∧
        (∀ j t, i < j →
          (executeSteps avail baseType outcomes plan idx accT [] accR).plan.steps.get? j
            = some t → t.status = .pending) := by
  intro fuel
  induction fuel with
  | zero =>
    intro plan idx accT accR hfuel hready hne
    have hge : ¬(idx < plan.steps.length) := by omega
    rw [executeSteps_stop hge] at hne
    exact absurd rfl hne
  | succ fuel ih =>
    intro plan idx accT accR hfuel hready hne
    have hlt : idx < plan.steps.length := by omega
    have hgetq : plan.steps.get? idx = some (plan.steps.get ⟨idx, hlt⟩) :=
      List.get?_eq_get hlt
    by_cases hp : (plan.steps.get ⟨idx, hlt⟩).status = .pending
    · obtain ⟨hC, hcur⟩ := hready.current_eq hgetq hp
      by_cases hav : avail ((plan.steps.get ⟨idx, hlt⟩).agentType.getD baseType) = false
      · -- no registered agent: step fails, loop continues
        rw [executeSteps_noAgent hlt hp hav] at hne ⊢
        have hsteps' := failCurrentStep_steps_at hready.inv hcur hgetq
          ("No agent available for type: "
            ++ ((plan.steps.get ⟨idx, hlt⟩).agentType.getD baseType).str)
        have hready' := hready.advanceIdx (planInv_fail hready.inv _) hsteps'
          (by constructor <;> simp)
        obtain ⟨i, c, tcs, appr, hi, h1, h2, h3, h4, h5⟩ :=
          ih _ (idx + 1) accT _ (by simp; omega) hready' hne
        exact ⟨i, c, tcs, appr, by omega, h1, h2, h3, h4, h5⟩
      · cases ho : outcomes idx with
        | success content tcs appr =>
          by_cases happ : appr = []
          · -- run succeeded with no approvals: loop continues
            subst happ
            rw [executeSteps_success_continue hlt hp hav ho] at hne ⊢
            simp only [List.append_nil] at hne ⊢
            have hsteps2 := completeAfterStart_steps hready.inv hcur hgetq
              (some (jsSlice content 200))
            have hready2 := hready.advanceIdx
              (planInv_complete (planInv_start hready.inv) _) hsteps2
              (by constructor <;> simp)
            obtain ⟨i, c, tcs1, appr1, hi, h1, h2, h3, h4, h5⟩ :=
              ih _ (idx + 1) (accT ++ tcs) _ (by simp; omega) hready2 hne
            exact ⟨i, c, tcs1, appr1, by omega, h1, h2, h3, h4, h5⟩
          · -- run succeeded with pending approvals: the loop pauses here
            rw [executeSteps_success_pause hlt hp hav ho happ] at hne ⊢
            have hsteps2 := completeAfterStart_steps hready.inv hcur hgetq
              (some (jsSlice content 200))
            refine ⟨idx, content, tcs, appr, Nat.le_refl idx, ho, happ, by simp, ?_, ?_⟩
            · show (((TaskPlanTracker.completeCurrentStep (TaskPlanTracker.startCurrentStep plan)
                (some (jsSlice content 200))).steps.get? idx).map (fun t => t.status))
                = some .completed
              rw [hsteps2, List.get?_set_eq_of_lt _ hlt]
              rfl
            · intro j t hj ht
              have ht2 : (TaskPlanTracker.completeCurrentStep
                  (TaskPlanTracker.startCurrentStep plan)
                  (some (jsSlice content 200))).steps.get? j = some t := ht
              rw [hsteps2, List.get?_set_ne _ _ (by omega)] at ht2
              exact hready.inv.suff hC j t ht2 (by omega)
        | thrown e =>
          -- run threw: step fails, loop continues
          rw [executeSteps_thrown hlt hp hav ho] at hne ⊢
          have hsteps2 := failAfterStart_steps hready.inv hcur hgetq e
          have hready2 := hready.advanceIdx
            (planInv_fail (planInv_start hready.inv) _) hsteps2
            (by constructor <;> simp)
          obtain ⟨i, c, tcs1, appr1, hi, h1, h2, h3, h4, h5⟩ :=
            ih _ (idx + 1) accT _ (by simp; omega) hready2 hne
          exact ⟨i, c, tcs1, appr1, by omega, h1, h2, h3, h4, h5⟩
    · -- step not pending: skipped by the loop
      rw [executeSteps_skip hlt hp] at hne ⊢
      have hready' : ExecReady plan (idx + 1) :=
        ⟨hready.inv, fun j t hj ht => by
          by_cases hje : j = idx
          · subst hje
            rw [hgetq] at ht
            cases ht
            exact hp
          · exact hready.prefDone j t (by omega) ht,
         hready.noInProgress⟩
      obtain ⟨i, c, tcs, appr, hi, h1, h2, h3, h4, h5⟩ :=
        ih plan (idx + 1) accT accR (by omega) hready' hne
      exact ⟨i, c, tcs, appr, by omega, h1, h2, h3, h4, h5⟩

/-- A concrete two-step plan as `generateTaskPlan` would emit it. -/
def examplePausePlan : TaskPlan :=
  TaskPlan.mk "find and delete the report"
    [TaskStep.mk 1 "Find file" "search for the report" .pending (some .search) none none,
     TaskStep.mk 2 "Delete file" "delete the found report" .pending (some .drive) none none]
    1 false none

theorem examplePausePlan_generated :
    generateTaskPlan (.parsed "find and delete the report"
      [ParsedStep.mk 1 "Find file" "search for the report" (some "search"),
       ParsedStep.mk 2 "Delete file" "delete the found report" (some "drive")])
      = some examplePausePlan := by
  rfl

/-- Outcome oracle: the first executed step succeeds but registers one
pending approval. -/
def examplePauseOutcomes : Nat → StepOutcome := fun _ =>
  .success "awaiting approval" [] [PendingApproval.mk "ap1" "files_delete" [] "destructive"]

/-- C1 (counterexample): executing `examplePausePlan` where step 1's run
yields a pending approval leaves step 1 with status `completed` — not
`pending` as the claim states — while step 2 stays `pending` and the
orchestration has stopped with that approval. -/
theorem executePlan_pause_counterexample :
    (executePlan (fun _ => true) .drive examplePauseOutcomes examplePausePlan).pendingApprovals
      = [PendingApproval.mk "ap1" "files_delete" [] "destructive"]
    ∧ ((executePlan (fun _ => true) .drive examplePauseOutcomes
        examplePausePlan).plan.steps.map (fun s => s.status))
      = [.completed, .pending] := by
  rw [executePlan, executeSteps_success_pause (by decide) (by decide) (by simp) rfl (by decide)]
  exact ⟨rfl, rfl⟩

/-- C1 (amended): for every invariant-satisfying plan with no `in-progress`
step handed to `executePlan`, if the run ends with a non-empty pending
approval list, then the approvals all come from a single step's successful
run: that step's final status is `completed` (with the approvals attached to
the result), and every later step is still `pending` — orchestration stopped
immediately after the step that yielded the approvals. -/
theorem executePlan_pause_amended (avail : AgentType → Bool) (baseType : AgentType)
    (outcomes : Nat → StepOutcome) (plan : TaskPlan)
    (hinv : PlanInv plan) (hnoip : ∀ t ∈ plan.steps, t.status ≠ .inProgress)
    (hne : (executePlan avail baseType outcomes plan).pendingApprovals ≠ []) :
    ∃ i content tcs appr,
      outcomes i = .success content tcs appr ∧ appr ≠ [] ∧
      (executePlan avail baseType outcomes plan).pendingApprovals = appr ∧
      ((executePlan avail baseType outcomes plan).plan.steps.get? i).map
        (fun t => t.status) = some .completed ∧
      ∀ j t, i < j →
        (executePlan avail baseType outcomes plan).plan.steps.get? j = some t →
        t.status = .pending := by
  have hready : ExecReady plan 0 :=
    ⟨hinv, fun j t hj _ => absurd hj (Nat.not_lt_zero j), hnoip⟩
  obtain ⟨i, c, tcs, appr, -, h1, h2, h3, h4, h5⟩ :=
    executeSteps_pause_spec avail baseType outcomes plan.steps.length plan 0 [] []
      (by omega) hready hne
  exact ⟨i, c, tcs, appr, h1, h2, h3, h4, h5⟩

/-- C1 witness: the amended theorem applied to the concrete pause scenario. -/
theorem executePlan_pause_amended_witness :
    ∃ i content tcs appr,
      examplePauseOutcomes i = .success content tcs appr ∧ appr ≠ [] ∧
      (executePlan (fun _ => true) .drive examplePauseOutcomes
        examplePausePlan).pendingApprovals = appr ∧
      ((executePlan (fun _ => true) .drive examplePauseOutcomes
        examplePausePlan).plan.steps.get? i).map (fun t => t.status) = some .completed ∧
      ∀ j t, i < j →
        (executePlan (fun _ => true) .drive examplePauseOutcomes
          examplePausePlan).plan.steps.get? j = some t →
        t.status = .pending := by
  apply executePlan_pause_amended (fun _ => true) .drive examplePauseOutcomes examplePausePlan
    (planInv_generate examplePausePlan_generated)
    (by decide)
  rw [executePlan, executeSteps_success_pause (by decide) (by decide) (by simp) rfl (by decide)]
  decide

/-- C3 (confirmed): every plan obtained from a `generateTaskPlan` result by
any sequence of tracker transitions has at most one `in-progress` step, and
its `currentStep` is the id of the lowest-id `pending` or `in-progress`
step, or else the plan is complete. -/
theorem tracked_plan_invariant (o : PlanGenOutcome) (plan : TaskPlan)
    (hgen : generateTaskPlan o = some plan) (ts : List PlanTrans) :
    ((applyTransList ts plan).steps.filter
      (fun s => s.status = .inProgress)).length ≤ 1 ∧
    ((∃ s ∈ (applyTransList ts plan).steps,
        s.id = (applyTransList ts plan).currentStep ∧
        (s.status = .pending ∨ s.status = .inProgress) ∧
        ∀ t ∈ (applyTransList ts plan).steps,
          (t.status = .pending ∨ t.status = .inProgress) → s.id ≤ t.id)
      ∨ (applyTransList ts plan).isComplete = true) := by
  have hinv := planInv_applyTransList ts (planInv_generate hgen)
  exact ⟨planInv_atMostOneInProgress hinv, planInv_currentLowest hinv⟩

/-- C3 witness: the invariant evaluated on a concrete generated plan after a
`start`/`complete` transition sequence. -/
theorem tracked_plan_invariant_witness :
    ((applyTransList [.start, .complete (some "found it")] examplePausePlan).steps.filter
      (fun s => s.status = .inProgress)).length ≤ 1 ∧
    ((∃ s ∈ (applyTransList [.start, .complete (some "found it")] examplePausePlan).steps,
        s.id = (applyTransList [.start, .complete (some "found it")]
          examplePausePlan).currentStep ∧
        (s.status = .pending ∨ s.status = .inProgress) ∧
        ∀ t ∈ (applyTransList [.start, .complete (some "found it")] examplePausePlan).steps,
          (t.status = .pending ∨ t.status = .inProgress) → s.id ≤ t.id)
      ∨ (applyTransList [.start, .complete (some "found it")]
          examplePausePlan).isComplete = true) :=
  tracked_plan_invariant _ examplePausePlan examplePausePlan_generated
    [.start, .complete (some "found it")]

/-- A parsed planner response with nine steps (the planner prompt asks for at
most eight, but the code never checks the count). -/
def nineParsedSteps : List ParsedStep :=
  [ParsedStep.mk 1 "s1" "d1" (some "search"), ParsedStep.mk 2 "s2" "d2" (some "search"),
   ParsedStep.mk 3 "s3" "d3" (some "document"), ParsedStep.mk 4 "s4" "d4" (some "document"),
   ParsedStep.mk 5 "s5" "d5" (some "drive"), ParsedStep.mk 6 "s6" "d6" (some "drive"),
   ParsedStep.mk 7 "s7" "d7" (some "drive"), ParsedStep.mk 8 "s8" "d8" (some "drive"),
   ParsedStep.mk 9 "s9" "d9" (some "drive")]

/-- C4 (counterexample): a backend response parsed to nine steps yields a
nine-step plan — `generateTaskPlan` enforces no 1..8 bound on the step
count. -/
theorem generateTaskPlan_nine_steps_counterexample :
    (generateTaskPlan (.parsed "big job" nineParsedSteps)).map (fun p => p.steps.length)
      = some 9 := by
  rfl

/-- C4 (amended): `generateTaskPlan` returns either no plan (on any backend
failure, missing/unparsable JSON, or zero steps) or a plan with at least one
step — as many as the backend returned, the 8-step maximum being only a
prompt instruction — whose ids are assigned densely as 1..n in order, every
step `pending`, `currentStep = 1` and `isComplete = false`; it never returns
a half-formed plan. -/
theorem generateTaskPlan_shape (o : PlanGenOutcome) :
    generateTaskPlan o = none ∨
    ∃ plan, generateTaskPlan o = some plan ∧ plan.steps ≠ [] ∧
      plan.currentStep = 1 ∧ plan.isComplete = false ∧
      ∀ i s, plan.steps.get? i = some s → s.id = i + 1 ∧ s.status = .pending := by
  cases hg : generateTaskPlan o with
  | none => exact Or.inl rfl
  | some plan =>
    obtain ⟨h1, h2, h3, h4⟩ := generateTaskPlan_spec hg
    exact Or.inr ⟨plan, rfl, h3, h1, h2, h4⟩

/-- Steps whose id differs from the target are untouched by the tracker's
find-and-mutate update. -/
theorem updFirst_get?_of_id_ne {l : List TaskStep} {cur : Nat} {f : TaskStep → TaskStep} :
    ∀ {i : Nat} {s : TaskStep}, l.get? i = some s → s.id ≠ cur →
      (updFirst l cur f).get? i = some s := by
  induction l with
  | nil =>
    intro i s h
    simp at h
  | cons a rest ih =>
    intro i s h hne
    by_cases ha : a.id = cur
    · simp only [updFirst, if_pos ha]
      cases i with
      | zero =>
        have : a = s := by simpa using h
        subst this
        exact absurd ha hne
      | succ i => exact h
    · simp only [updFirst, if_neg ha]
      cases i with
      | zero => exact h
      | succ i => exact ih h hne

/-- The post-call value of the caller's argument, per transition. -/
def applyTransArgAfter (t : PlanTrans) (plan : TaskPlan) : TaskPlan :=
  match t with
  | .start => TaskPlanTracker.startCurrentStepArgAfter plan
  | .complete r => TaskPlanTracker.completeCurrentStepArgAfter plan r
  | .fail e => TaskPlanTracker.failCurrentStepArgAfter plan e
  | .skip r => TaskPlanTracker.skipCurrentStepArgAfter plan r

/-- C5 (counterexample): `completeCurrentStep` mutates its input plan: after
the call, the caller's plan value differs from what was passed in — its only
step now reads `completed` with the result attached. -/
theorem tracker_mutates_argument_counterexample :
    TaskPlanTracker.completeCurrentStepArgAfter
      (TaskPlan.mk "g" [TaskStep.mk 1 "a" "d" .pending none none none] 1 false none)
      (some "done")
      ≠ TaskPlan.mk "g" [TaskStep.mk 1 "a" "d" .pending none none none] 1 false none
    ∧ (TaskPlanTracker.completeCurrentStepArgAfter
        (TaskPlan.mk "g" [TaskStep.mk 1 "a" "d" .pending none none none] 1 false none)
        (some "done")).steps.map (fun s => s.status) = [.completed] := by
  constructor
  · decide
  · rfl

/-- C5 (amended): each tracker transition returns a new plan value and
leaves the caller argument's own scalar fields (`goal`, `currentStep`,
`isComplete`, `summary`) unchanged, but because the step objects are shared
between the shallow-copied arrays, the argument's step array after the call
equals the returned plan's step array: the step matching `currentStep` is
mutated in the input too, while every step with a different id is left
exactly as it was. -/
theorem tracker_argAfter_amended (t : PlanTrans) (plan : TaskPlan) :
    (applyTransArgAfter t plan).goal = plan.goal ∧
    (applyTransArgAfter t plan).currentStep = plan.currentStep ∧
    (applyTransArgAfter t plan).isComplete = plan.isComplete ∧
    (applyTransArgAfter t plan).summary = plan.summary ∧
    (applyTransArgAfter t plan).steps = (applyTrans t plan).steps ∧
    ∀ i s, plan.steps.get? i = some s → s.id ≠ plan.currentStep →
      (applyTransArgAfter t plan).steps.get? i = some s := by
  cases t with
  | start =>
    exact ⟨rfl, rfl, rfl, rfl, rfl, fun i s h hne => updFirst_get?_of_id_ne h hne⟩
  | complete r =>
    refine ⟨rfl, rfl, rfl, rfl, ?_, fun i s h hne => updFirst_get?_of_id_ne h hne⟩
    show TaskPlanTracker.completeSteps plan r = (TaskPlanTracker.completeCurrentStep plan r).steps
    rw [TaskPlanTracker.completeCurrentStep, advancePlan_steps]
  | fail e =>
    refine ⟨rfl, rfl, rfl, rfl, ?_, fun i s h hne => updFirst_get?_of_id_ne h hne⟩
    show TaskPlanTracker.failSteps plan e = (TaskPlanTracker.failCurrentStep plan e).steps
    rw [TaskPlanTracker.failCurrentStep, advancePlan_steps]
  | skip r =>
    refine ⟨rfl, rfl, rfl, rfl, ?_, fun i s h hne => updFirst_get?_of_id_ne h hne⟩
    show TaskPlanTracker.skipSteps plan r = (TaskPlanTracker.skipCurrentStep plan r).steps
    rw [TaskPlanTracker.skipCurrentStep, advancePlan_steps]

/-- C5 witness: on the concrete two-step plan, the sharing theorem shows the
second step (id 2 ≠ currentStep 1) of the caller's argument is untouched by
`completeCurrentStep`. -/
theorem tracker_argAfter_amended_witness :
    (applyTransArgAfter (.complete (some "found")) examplePausePlan).steps.get? 1
      = some (TaskStep.mk 2 "Delete file" "delete the found report" .pending
          (some .drive) none none) :=
  (tracker_argAfter_amended (.complete (some "found")) examplePausePlan).2.2.2.2.2 1 _
    rfl (by decide)

/-- The sorted score list is always three entries whose first two scores are
the maximum and the median of the three raw counts. -/
theorem calculatePatternScores_shape (d s dr : Nat) :
    ∃ a b c : PatternScore, calculatePatternScores d s dr = [a, b, c] ∧
      a.score = max d (max s dr) ∧ b.score = max (min d s) (min (max d s) dr) := by
  simp only [calculatePatternScores, List.foldl, insertScoreDesc]
  split_ifs <;>
    simp only [insertScoreDesc] <;>
    split_ifs <;>
    (refine ⟨_, _, _, rfl, ?_, ?_⟩ <;> simp_all <;> omega)

/-- The head of the sorted score list carries the maximum raw count. -/
theorem calculatePatternScores_top (d s dr : Nat) :
    (topOf (calculatePatternScores d s dr)).score = max d (max s dr) := by
  obtain ⟨a, b, c, heq, ha, -⟩ := calculatePatternScores_shape d s dr
  rw [heq]
  exact ha

/-- A decision actually produced by the LLM router carries source `llm`. -/
theorem callLlmRouter_source {o : LlmRouterOutcome} {d : RouteDecision}
    (h : callLlmRouter o = some d) : d.source = .llm := by
  cases o with
  | parsed rt c r =>
    simp only [callLlmRouter] at h
    cases hp : parseAgentType rt with
    | none => rw [hp] at h; cases h
    | some t =>
      rw [hp] at h
      cases h
      rfl
  | noApiKey => cases h
  | thrown => cases h
  | httpError s => cases h
  | emptyContent => cases h
  | noJsonObject => cases h

/-- The classifier failure outcomes: every constructor the source maps to
`null` (`return null` / caught exception), plus a parsed object whose
`route_to` is out of set. -/
def llmRouterFailed (o : LlmRouterOutcome) : Prop :=
  match o with
  | .parsed rt _ _ => parseAgentType rt = none
  | _ => True

/-- Failure outcomes all map to `none`. -/
theorem callLlmRouter_failed {o : LlmRouterOutcome} (h : llmRouterFailed o) :
    callLlmRouter o = none := by
  cases o with
  | parsed rt c r =>
    simp only [llmRouterFailed] at h
    simp only [callLlmRouter, h]
  | noApiKey => rfl
  | thrown => rfl
  | httpError s => rfl
  | emptyContent => rfl
  | noJsonObject => rfl

/-- Without a sticky type, no route decision carries source `conversation`. -/
theorem routeToAgent_no_sticky_source (threshold : Rat) (d s dr : Nat)
    (o : LlmRouterOutcome) :
    (routeToAgent threshold none none d s dr o).source ≠ .conversation := by
  by_cases hstrong : (topOf (calculatePatternScores d s dr)).score > 0 ∧
      getConfidence (calculatePatternScores d s dr) ≥ threshold
  · simp only [routeToAgent, if_pos hstrong]
    intro h
    cases h
  · simp only [routeToAgent, if_neg hstrong]
    cases hc : callLlmRouter o with
    | some dec =>
      have := callLlmRouter_source hc
      intro h
      rw [h] at this
      cases this
    | none =>
      by_cases ht : (topOf (calculatePatternScores d s dr)).score > 0
      · simp only [if_pos ht]
        intro h
        cases h
      · simp only [if_neg ht]
        intro h
        cases h

/-- C2 (counterexample): a turn with no explicit hint, no pattern signal, an
*absent* plan and sticky type `document` does not return the sticky type:
the code withholds the sticky type from the router exactly when the plan is
absent or complete, so (with the classifier failing) routing falls through
to the hard default instead of the claimed conversation decision. -/
theorem chat_sticky_routing_counterexample :
    (chatRouteDecision (1/2) none none .document 0 0 0 .thrown).source = .default
      ∧ (chatRouteDecision (1/2) none none .document 0 0 0 .thrown).route_to = .drive
      ∧ chatRouteDecision (1/2) none none .document 0 0 0 .thrown
          ≠ RouteDecision.mk .document (9/10) .conversation := by
  refine ⟨rfl, rfl, fun h => ?_⟩
  have hs := congrArg RouteDecision.source h
  simp only [chatRouteDecision, chatStickyArg, routeToAgent] at hs
  cases hs

/-- C2 (amended): for every chat turn with no explicit hint and no strong
pattern match, the sticky agent type is returned (source `conversation`,
confidence 0.9) exactly when the conversation holds an *unfinished* plan;
when the plan is absent or complete the sticky type is not passed to the
router, and the decision never carries source `conversation`. -/
theorem chat_sticky_routing_amended (threshold : Rat) (activePlan : Option TaskPlan)
    (convType : AgentType) (d s dr : Nat) (o : LlmRouterOutcome)
    (hweak : ¬((topOf (calculatePatternScores d s dr)).score > 0 ∧
        getConfidence (calculatePatternScores d s dr) ≥ threshold)) :
    (chatRouteDecision threshold none activePlan convType d s dr o
        = RouteDecision.mk convType (9/10) .conversation)
      ↔ (∃ p, activePlan = some p ∧ p.isComplete = false) := by
  cases activePlan with
  | none =>
    simp only [chatRouteDecision, chatStickyArg]
    constructor
    · intro h
      have := routeToAgent_no_sticky_source threshold d s dr o
      rw [h] at this
      exact absurd rfl this
    · rintro ⟨p, hp, -⟩
      cases hp
  | some p =>
    cases hpc : p.isComplete with
    | true =>
      have harg : chatStickyArg (some p) convType = none := by
        simp [chatStickyArg, hpc]
      simp only [chatRouteDecision, harg]
      constructor
      · intro h
        have := routeToAgent_no_sticky_source threshold d s dr o
        rw [h] at this
        exact absurd rfl this
      · rintro ⟨q, hq, hqc⟩
        cases hq
        rw [hpc] at hqc
        cases hqc
    | false =>
      have harg : chatStickyArg (some p) convType = some convType := by
        simp [chatStickyArg, hpc]
      simp only [chatRouteDecision, harg]
      constructor
      · intro _
        exact ⟨p, rfl, hpc⟩
      · intro _
        simp only [routeToAgent, if_neg hweak]

/-- C2 witness: with an unfinished plan, no hint and no pattern signal, the
sticky type is returned with source `conversation` and confidence 0.9. -/
theorem chat_sticky_routing_amended_witness :
    chatRouteDecision (1/2) none (some examplePausePlan) .document 0 0 0 .thrown
      = RouteDecision.mk .document (9/10) .conversation :=
  (chat_sticky_routing_amended (1/2) (some examplePausePlan) .document 0 0 0 .thrown
    (by decide)).mpr ⟨examplePausePlan, rfl, rfl⟩

/-- C6 (confirmed): for every classifier failure outcome (unset key, thrown
error, HTTP failure, empty or JSON-less content, or an out-of-set agent
type), `callLlmRouter` returns `none` instead of propagating, and
`routeToAgent` (no hint, no sticky type) degrades to the best nonzero
pattern score with source `pattern`, or to the hard default `drive` with
source `default` and confidence 0.2 when every pattern score is zero. -/
theorem routeToAgent_degrades_on_classifier_failure (threshold : Rat)
    (d s dr : Nat) (o : LlmRouterOutcome) (hfail : llmRouterFailed o) :
    callLlmRouter o = none ∧
    (topOf (calculatePatternScores d s dr)).score = max d (max s dr) ∧
    (if d = 0 ∧ s = 0 ∧ dr = 0 then
      routeToAgent threshold none none d s dr o = RouteDecision.mk .drive (1/5) .default
     else (routeToAgent threshold none none d s dr o).route_to
            = (topOf (calculatePatternScores d s dr)).type ∧
          (routeToAgent threshold none none d s dr o).source = .pattern) := by
  have hnone := callLlmRouter_failed hfail
  have htop := calculatePatternScores_top d s dr
  refine ⟨hnone, htop, ?_⟩
  by_cases hz : d = 0 ∧ s = 0 ∧ dr = 0
  · rw [if_pos hz]
    have htop0 : (topOf (calculatePatternScores d s dr)).score = 0 := by
      rw [htop]; omega
    have hns : ¬((topOf (calculatePatternScores d s dr)).score > 0 ∧
        getConfidence (calculatePatternScores d s dr) ≥ threshold) := by
      intro hc
      rw [htop0] at hc
      exact absurd hc.1 (by omega)
    simp only [routeToAgent, if_neg hns, hnone]
    rw [if_neg (by rw [htop0]; omega)]
  · rw [if_neg hz]
    have htpos : (topOf (calculatePatternScores d s dr)).score > 0 := by
      rw [htop]; omega
    by_cases hstrong : (topOf (calculatePatternScores d s dr)).score > 0 ∧
        getConfidence (calculatePatternScores d s dr) ≥ threshold
    · simp only [routeToAgent, if_pos hstrong]
      exact ⟨trivial, trivial⟩
    · simp only [routeToAgent, if_neg hstrong, hnone, if_pos htpos]
      exact ⟨trivial, trivial⟩

/-- C6 witness: the degradation theorem at the thrown-classifier outcome
with all pattern scores zero. -/
theorem routeToAgent_degrades_witness :
    callLlmRouter .thrown = none ∧
    (topOf (calculatePatternScores 0 0 0)).score = max 0 (max 0 0) ∧
    (if (0 = 0 ∧ 0 = 0 ∧ 0 = 0) then
      routeToAgent (1/2) none none 0 0 0 .thrown = RouteDecision.mk .drive (1/5) .default
     else (routeToAgent (1/2) none none 0 0 0 .thrown).route_to
            = (topOf (calculatePatternScores 0 0 0)).type ∧
          (routeToAgent (1/2) none none 0 0 0 .thrown).source = .pattern) :=
  routeToAgent_degrades_on_classifier_failure (1/2) 0 0 0 .thrown trivial

/-- C7 (confirmed): the pattern confidence is 0 when the top score is 0,
`(top − second)/(top + second)` when top and second are both nonzero, and
`min(top/3, 1)` when the top is nonzero and the second is 0 (top = maximum,
second = median of the three raw counts); and whenever the top score is
positive and the confidence meets the threshold, the decision (absent an
explicit hint) is the top-scoring type with source `pattern` and that
confidence. -/
theorem pattern_confidence_formula (threshold : Rat) (d s dr : Nat)
    (cat : Option AgentType) (o : LlmRouterOutcome) :
    getConfidence (calculatePatternScores d s dr)
      = (if max d (max s dr) = 0 then 0
         else if max (min d s) (min (max d s) dr) ≠ 0 then
           ((max d (max s dr) : Rat) - (max (min d s) (min (max d s) dr) : Rat))
             / ((max d (max s dr) : Rat) + (max (min d s) (min (max d s) dr) : Rat))
         else min ((max d (max s dr) : Rat) / 3) 1) ∧
    ((topOf (calculatePatternScores d s dr)).score > 0 →
      getConfidence (calculatePatternScores d s dr) ≥ threshold →
      routeToAgent threshold none cat d s dr o
        = RouteDecision.mk (topOf (calculatePatternScores d s dr)).type
            (getConfidence (calculatePatternScores d s dr)) .pattern) := by
  constructor
  · obtain ⟨a, b, c, heq, ha, hb⟩ := calculatePatternScores_shape d s dr
    rw [heq]
    by_cases h1 : max d (max s dr) = 0
    · simp [getConfidence, ha, hb, h1]
    · by_cases h2 : max (min d s) (min (max d s) dr) = 0
      · simp [getConfidence, ha, hb, h1, h2]
      · simp [getConfidence, ha, hb, h1, h2]
  · intro h1 h2
    simp only [routeToAgent, if_pos (And.intro h1 h2)]

/-- C7 witness: with raw scores (3, 0, 0) the pattern branch fires at
threshold 1/2 and returns the top-scoring type with source `pattern`. -/
theorem pattern_confidence_formula_witness :
    routeToAgent (1/2) none none 3 0 0 .thrown
      = RouteDecision.mk (topOf (calculatePatternScores 3 0 0)).type
          (getConfidence (calculatePatternScores 3 0 0)) .pattern :=
  (pattern_confidence_formula (1/2) 3 0 0 none .thrown).2 (by decide)
    (by norm_num [getConfidence, calculatePatternScores, insertScoreDesc])

/-- The fixed-form truncation notice of the `base-agent` loop, stating the
cap and the original character count. -/
def truncationNotice (orig : Nat) : String :=
  "\n\n[Truncated: " ++ toString MAX_TOOL_RESULT_CHARS ++ " of "
    ++ toString orig ++ " chars]"

/-- The fixed-form truncation notice of `AgentService.runAgentLoop`
(`agent.service.ts`). -/
def truncationNoticeLegacy (orig : Nat) : String :=
  "\n\n[Content truncated: showing " ++ toString MAX_TOOL_RESULT_CHARS ++ " of "
    ++ toString orig
    ++ " characters. Use semantic_search_files for targeted queries on large files.]"

theorem jsSlice_length (s : String) (n : Nat) : (jsSlice s n).length = min n s.length := by
  rw [jsSlice, String.length_mk, List.length_take]
  cases s
  rfl

/-- C8 (confirmed): in both agent loops, a tool result at or under the
20,000-character cap is stored unchanged, and a longer one is stored as
exactly the first 20,000 characters followed by the fixed-form notice
stating the original character count — so the stored text's length is the
cap plus the notice length. -/
theorem tool_result_truncation (r : String) :
    (r.length ≤ MAX_TOOL_RESULT_CHARS →
      truncateToolResult r = r ∧ truncateToolResultLegacy r = r) ∧
    (r.length > MAX_TOOL_RESULT_CHARS →
      truncateToolResult r = jsSlice r MAX_TOOL_RESULT_CHARS ++ truncationNotice r.length ∧
      truncateToolResultLegacy r
        = jsSlice r MAX_TOOL_RESULT_CHARS ++ truncationNoticeLegacy r.length ∧
      (truncateToolResult r).length
        = MAX_TOOL_RESULT_CHARS + (truncationNotice r.length).length ∧
      (truncateToolResultLegacy r).length
        = MAX_TOOL_RESULT_CHARS + (truncationNoticeLegacy r.length).length) := by
  constructor
  · intro hle
    have hng : ¬(r.length > MAX_TOOL_RESULT_CHARS) := by omega
    exact ⟨by rw [truncateToolResult, if_neg hng], by rw [truncateToolResultLegacy, if_neg hng]⟩
  · intro hgt
    have he1 : truncateToolResult r
        = jsSlice r MAX_TOOL_RESULT_CHARS ++ truncationNotice r.length := by
      rw [truncateToolResult, if_pos hgt]
      rfl
    have he2 : truncateToolResultLegacy r
        = jsSlice r MAX_TOOL_RESULT_CHARS ++ truncationNoticeLegacy r.length := by
      rw [truncateToolResultLegacy, if_pos hgt]
      rfl
    have hsl : (jsSlice r MAX_TOOL_RESULT_CHARS).length = MAX_TOOL_RESULT_CHARS := by
      rw [jsSlice_length]
      omega
    refine ⟨he1, he2, ?_, ?_⟩
    · rw [he1, String.length_append, hsl]
    · rw [he2, String.length_append, hsl]

/-- C8 witness: a 25,000-character result exceeds the cap and is stored
truncated to exactly the cap length plus the notice length. -/
theorem tool_result_truncation_witness :
    (String.mk (List.replicate 25000 'a')).length > MAX_TOOL_RESULT_CHARS ∧
    (truncateToolResult (String.mk (List.replicate 25000 'a'))).length
      = MAX_TOOL_RESULT_CHARS + (truncationNotice 25000).length := by
  have hlen : (String.mk (List.replicate 25000 'a')).length = 25000 := by
    rw [String.length_mk, List.length_replicate]
  have hgt : (String.mk (List.replicate 25000 'a')).length > MAX_TOOL_RESULT_CHARS := by
    rw [hlen]
    norm_num [MAX_TOOL_RESULT_CHARS]
  refine ⟨hgt, ?_⟩
  have h := ((tool_result_truncation (String.mk (List.replicate 25000 'a'))).2 hgt).2.2.1
  rw [h, hlen]

/-- C10 (confirmed): in a single-agent turn (`needsOrchestration` false) with
an active incomplete plan, the current step ends `failed` exactly when at
least one recorded tool call carries the error flag, and `completed`
otherwise; a gateway-blocked call's synthesized result carries the flag
(`true`) while an approval-deferred call's does not (`false`). -/
theorem single_agent_step_marking (plan : TaskPlan) (hinv : PlanInv plan)
    (hic : plan.isComplete = false) (hno : needsOrchestration plan = false)
    (tcs : List IToolCall) (content : String) :
    (∀ name args reason, (processToolCall name args (.blocked reason)).1.isError = true) ∧
    (∀ name args approvalId reason,
      (processToolCall name args (.approvalRequired approvalId reason)).1.isError = false) ∧
    ∃ p', chatSinglePlanUpdate (some plan) tcs content = some p' ∧
      (p'.steps.get? (plan.currentStep - 1)).map (fun t => t.status)
        = some (if tcs.any (fun tc => tc.isError) then TaskStatus.failed
                else TaskStatus.completed) := by
  refine ⟨fun _ _ _ => rfl, fun _ _ _ _ => rfl, ?_⟩
  have hlb := hinv.lb
  have hcur : plan.currentStep = (plan.currentStep - 1) + 1 := by omega
  obtain ⟨s0, hs0⟩ := hinv.cur_get
  have hlt : plan.currentStep - 1 < plan.steps.length := by
    have := hinv.ub
    omega
  have hupdate : chatSinglePlanUpdate (some plan) tcs content
      = some (chatRunPlanUpdate (TaskPlanTracker.startCurrentStep plan) tcs content) := by
    simp only [chatSinglePlanUpdate, hic]
    rw [if_neg (by simp [hic]), if_neg (by
      show ¬((TaskPlanTracker.startCurrentStep plan).isComplete = true)
      simp [TaskPlanTracker.startCurrentStep, hic])]
  refine ⟨chatRunPlanUpdate (TaskPlanTracker.startCurrentStep plan) tcs content, hupdate, ?_⟩
  by_cases herr : tcs.any (fun tc => tc.isError)
  · rw [chatRunPlanUpdate, if_pos herr]
    have hsteps := failAfterStart_steps hinv hcur hs0 (joinToolErrors tcs)
    rw [hsteps, if_pos herr, List.get?_set_eq_of_lt _ hlt]
    rfl
  · rw [chatRunPlanUpdate, if_neg herr]
    have hsteps := completeAfterStart_steps hinv hcur hs0 (some (jsSlice content 200))
    rw [hsteps, if_neg herr, List.get?_set_eq_of_lt _ hlt]
    rfl

/-- A one-step generated plan for the single-agent scenario. -/
def exampleSinglePlan : TaskPlan :=
  TaskPlan.mk "delete the report"
    [TaskStep.mk 1 "Delete file" "delete the report" .pending (some .drive) none none]
    1 false none

theorem exampleSinglePlan_generated :
    generateTaskPlan (.parsed "delete the report"
      [ParsedStep.mk 1 "Delete file" "delete the report" (some "drive")])
      = some exampleSinglePlan := by
  rfl

/-- C10 witness: a gateway-blocked call (error flag `true`) makes the single
step end `failed`. -/
theorem single_agent_step_marking_witness :
    (∀ name args reason, (processToolCall name args (.blocked reason)).1.isError = true) ∧
    (∀ name args approvalId reason,
      (processToolCall name args (.approvalRequired approvalId reason)).1.isError = false) ∧
    ∃ p', chatSinglePlanUpdate (some exampleSinglePlan)
        [(processToolCall "files_delete" [] (.blocked "not allowed")).1] "done" = some p' ∧
      (p'.steps.get? (exampleSinglePlan.currentStep - 1)).map (fun t => t.status)
        = some (if [(processToolCall "files_delete" [] (.blocked "not allowed")).1].any
                  (fun tc => tc.isError) then TaskStatus.failed else TaskStatus.completed) :=
  single_agent_step_marking exampleSinglePlan
    (planInv_generate exampleSinglePlan_generated) rfl (by decide)
    [(processToolCall "files_delete" [] (.blocked "not allowed")).1] "done"

/-- The character contribution of one message to `estimateMessageChars`. -/
def msgContrib (m : LlmMessage) : Int :=
  (match m.content with
   | some c => (c.length : Int)
   | none => 0) +
  (match m.tool_calls with
   | some tcs => tcs.foldl (fun t tc =>
       t + (tc.function.arguments.length : Int) + (tc.function.name.length : Int)) 0
   | none => 0)

theorem toolCalls_foldl_shift (tcs : List LlmToolCall) (a : Int) :
    tcs.foldl (fun t tc =>
        t + (tc.function.arguments.length : Int) + (tc.function.name.length : Int)) a
      = a + tcs.foldl (fun t tc =>
        t + (tc.function.arguments.length : Int) + (tc.function.name.length : Int)) 0 := by
  induction tcs generalizing a with
  | nil => simp
  | cons tc rest ih =>
    simp only [List.foldl]
    rw [ih, ih ((0 : Int) + _ + _)]
    ring

theorem toolCalls_foldl_nonneg (tcs : List LlmToolCall) :
    0 ≤ tcs.foldl (fun t tc =>
        t + (tc.function.arguments.length : Int) + (tc.function.name.length : Int)) 0 := by
  induction tcs with
  | nil => simp
  | cons tc rest ih =>
    simp only [List.foldl]
    rw [toolCalls_foldl_shift]
    have h1 : (0 : Int) ≤ (tc.function.arguments.length : Int) := Int.natCast_nonneg _
    have h2 : (0 : Int) ≤ (tc.function.name.length : Int) := Int.natCast_nonneg _
    omega

theorem estimateStep_eq (total : Int) (m : LlmMessage) :
    estimateStep total m = total + msgContrib m := by
  obtain ⟨role, content, tool_calls, tcid⟩ := m
  unfold estimateStep msgContrib
  cases content with
  | none =>
    cases tool_calls with
    | none => simp
    | some tcs =>
      simp only []
      rw [toolCalls_foldl_shift]
      ring
  | some c =>
    cases tool_calls with
    | none => simp
    | some tcs =>
      simp only []
      rw [toolCalls_foldl_shift]
      ring

theorem msgContrib_nonneg (m : LlmMessage) : 0 ≤ msgContrib m := by
  obtain ⟨role, content, tool_calls, tcid⟩ := m
  unfold msgContrib
  cases content with
  | none =>
    cases tool_calls with
    | none => simp
    | some tcs =>
      have := toolCalls_foldl_nonneg tcs
      simp only []
      omega
  | some c =>
    have h1 : (0 : Int) ≤ (c.length : Int) := Int.natCast_nonneg _
    cases tool_calls with
    | none =>
      simp only []
      omega
    | some tcs =>
      have := toolCalls_foldl_nonneg tcs
      simp only []
      omega

theorem foldl_estimateStep_shift (msgs : List LlmMessage) :
    ∀ a : Int, msgs.foldl estimateStep a = a + msgs.foldl estimateStep 0 := by
  induction msgs with
  | nil => simp
  | cons m rest ih =>
    intro a
    simp only [List.foldl]
    rw [ih (estimateStep a m), ih (estimateStep 0 m), estimateStep_eq, estimateStep_eq]
    ring

theorem estimateMessageChars_cons (m : LlmMessage) (rest : List LlmMessage) :
    estimateMessageChars (m :: rest) = msgContrib m + estimateMessageChars rest := by
  unfold estimateMessageChars
  simp only [List.foldl]
  rw [foldl_estimateStep_shift, estimateStep_eq]
  ring

theorem estimateMessageChars_nonneg (msgs : List LlmMessage) :
    0 ≤ estimateMessageChars msgs := by
  induction msgs with
  | nil => simp [estimateMessageChars]
  | cons m rest ih =>
    rw [estimateMessageChars_cons]
    have := msgContrib_nonneg m
    omega

theorem estimateMessageChars_set :
    ∀ (msgs : List LlmMessage) (i : Nat) (m m' : LlmMessage),
      msgs.get? i = some m →
      estimateMessageChars (msgs.set i m')
        = estimateMessageChars msgs - msgContrib m + msgContrib m' := by
  intro msgs
  induction msgs with
  | nil =>
    intro i m m' h
    simp at h
  | cons a rest ih =>
    intro i m m' h
    cases i with
    | zero =>
      have ham : a = m := by simpa using h
      subst ham
      simp only [List.set]
      rw [estimateMessageChars_cons, estimateMessageChars_cons]
      ring
    | succ i =>
      simp only [List.set]
      rw [estimateMessageChars_cons, estimateMessageChars_cons, ih i m m' h]
      ring

theorem estimateMessageChars_eraseIdx :
    ∀ (msgs : List LlmMessage) (i : Nat) (m : LlmMessage),
      msgs.get? i = some m →
      estimateMessageChars (msgs.eraseIdx i)
        = estimateMessageChars msgs - msgContrib m := by
  intro msgs
  induction msgs with
  | nil =>
    intro i m h
    simp at h
  | cons a rest ih =>
    intro i m h
    cases i with
    | zero =>
      have ham : a = m := by simpa using h
      subst ham
      simp only [List.eraseIdx]
      rw [estimateMessageChars_cons]
      ring
    | succ i =>
      simp only [List.eraseIdx]
      rw [estimateMessageChars_cons, estimateMessageChars_cons, ih i m h]
      ring

theorem msgContrib_content_update {m : LlmMessage} {c c' : String} (h : m.content = some c) :
    msgContrib { m with content := some c' }
      = msgContrib m - (c.length : Int) + (c'.length : Int) := by
  obtain ⟨role, content, tool_calls, tcid⟩ := m
  cases h
  unfold msgContrib
  cases tool_calls <;> (simp only []; ring)

theorem msgContrib_ge_content {m : LlmMessage} {c : String} (h : m.content = some c) :
    (c.length : Int) ≤ msgContrib m := by
  obtain ⟨role, content, tool_calls, tcid⟩ := m
  cases h
  unfold msgContrib
  cases tool_calls with
  | none => simp
  | some tcs =>
    have := toolCalls_foldl_nonneg tcs
    simp only []
    omega

theorem compressPhase1_exit {msgs : List LlmMessage} {i bound : Nat} {total : Int}
    (h : ¬(i < bound ∧ total > (MAX_CONTEXT_CHARS : Int))) :
    compressPhase1 msgs i bound total = (msgs, total) := by
  rw [compressPhase1]
  simp only [dif_neg h]

theorem compressPhase2_exit {msgs : List LlmMessage} {total : Int}
    (h : ¬(msgs.length > KEEP_RECENT + 1 ∧ total > (MAX_CONTEXT_CHARS : Int))) :
    compressPhase2 msgs total = (msgs, total) := by
  rw [compressPhase2]
  simp only [dif_neg h]

/-- Phase 1 keeps its running total equal to the estimate of the current
list and preserves the list length. -/
theorem compressPhase1_spec :
    ∀ (fuel : Nat) (msgs : List LlmMessage) (i bound : Nat) (total : Int),
      bound - i = fuel →
      total = estimateMessageChars msgs →
      (compressPhase1 msgs i bound total).2
          = estimateMessageChars (compressPhase1 msgs i bound total).1
        ∧ (compressPhase1 msgs i bound total).1.length = msgs.length := by
  intro fuel
  induction fuel with
  | zero =>
    intro msgs i bound total hfuel hest
    rw [compressPhase1_exit (by omega)]
    exact ⟨hest, rfl⟩
  | succ fuel ih =>
    intro msgs i bound total hfuel hest
    by_cases hc : i < bound ∧ total > (MAX_CONTEXT_CHARS : Int)
    · rw [compressPhase1]
      simp only [dif_pos hc]
      cases hm : msgs.get? i with
      | none =>
        exact ih msgs (i + 1) bound total (by omega) hest
      | some msg =>
        obtain ⟨role, content, tool_calls, tcid⟩ := msg
        cases role with
        | tool =>
          cases content with
          | none => exact ih msgs (i + 1) bound total (by omega) hest
          | some c =>
            show ((if c.length > 200 then
                compressPhase1
                  (msgs.set i (LlmMessage.mk LlmRole.tool (some (shrinkToolContent c))
                    tool_calls tcid))
                  (i + 1) bound
                  (total - ((c.length : Int) - ((shrinkToolContent c).length : Int)))
              else compressPhase1 msgs (i + 1) bound total).2
                = estimateMessageChars (if c.length > 200 then
                    compressPhase1
                      (msgs.set i (LlmMessage.mk LlmRole.tool (some (shrinkToolContent c))
                        tool_calls tcid))
                      (i + 1) bound
                      (total - ((c.length : Int) - ((shrinkToolContent c).length : Int)))
                  else compressPhase1 msgs (i + 1) bound total).1
              ∧ (if c.length > 200 then
                    compressPhase1
                      (msgs.set i (LlmMessage.mk LlmRole.tool (some (shrinkToolContent c))
                        tool_calls tcid))
                      (i + 1) bound
                      (total - ((c.length : Int) - ((shrinkToolContent c).length : Int)))
                  else compressPhase1 msgs (i + 1) bound total).1.length = msgs.length)
            by_cases hlen : c.length > 200
            · rw [if_pos hlen]
              have hupd : msgContrib (LlmMessage.mk LlmRole.tool (some (shrinkToolContent c))
                    tool_calls tcid)
                  = msgContrib (LlmMessage.mk LlmRole.tool (some c) tool_calls tcid)
                    - (c.length : Int) + ((shrinkToolContent c).length : Int) :=
                msgContrib_content_update
                  (m := LlmMessage.mk LlmRole.tool (some c) tool_calls tcid) rfl
              have hest2 : total - ((c.length : Int) - ((shrinkToolContent c).length : Int))
                  = estimateMessageChars (msgs.set i
                      (LlmMessage.mk LlmRole.tool (some (shrinkToolContent c))
                        tool_calls tcid)) := by
                rw [estimateMessageChars_set msgs i _ _ hm, hupd, hest]
                ring
              obtain ⟨ha, hb⟩ := ih _ (i + 1) bound _ (by omega) hest2
              refine ⟨ha, ?_⟩
              rw [hb]
              simp
            · rw [if_neg hlen]
              exact ih msgs (i + 1) bound total (by omega) hest
        | system => exact ih msgs (i + 1) bound total (by omega) hest
        | user => exact ih msgs (i + 1) bound total (by omega) hest
        | assistant => exact ih msgs (i + 1) bound total (by omega) hest
    · rw [compressPhase1_exit hc]
      exact ⟨hest, rfl⟩

/-- Phase 2 keeps its running total an upper bound on the estimate and stops
only under the cap or at the minimum retained length. -/
theorem compressPhase2_spec :
    ∀ (fuel : Nat) (msgs : List LlmMessage) (total : Int),
      msgs.length = fuel →
      estimateMessageChars msgs ≤ total →
      estimateMessageChars (compressPhase2 msgs total).1 ≤ (compressPhase2 msgs total).2
        ∧ ((compressPhase2 msgs total).2 ≤ (MAX_CONTEXT_CHARS : Int)
            ∨ (compressPhase2 msgs total).1.length ≤ KEEP_RECENT + 1) := by
  intro fuel
  induction fuel with
  | zero =>
    intro msgs total hfuel hle
    rw [compressPhase2_exit (by omega)]
    refine ⟨hle, Or.inr ?_⟩
    show msgs.length ≤ KEEP_RECENT + 1
    omega
  | succ fuel ih =>
    intro msgs total hfuel hle
    by_cases hc : msgs.length > KEEP_RECENT + 1 ∧ total > (MAX_CONTEXT_CHARS : Int)
    · have h1 : 1 < msgs.length := by
        have := hc.1
        simp only [KEEP_RECENT] at this
        omega
      have hm : msgs.get? 1 = some (msgs.get ⟨1, h1⟩) := List.get?_eq_get h1
      rw [compressPhase2]
      simp only [dif_pos hc, hm]
      have herase := estimateMessageChars_eraseIdx msgs 1 _ hm
      have hlenerase : (msgs.eraseIdx 1).length = fuel := by
        rw [List.length_eraseIdx]
        simp only [if_pos h1]
        omega
      cases hr : (msgs.get ⟨1, h1⟩).content with
      | none =>
        simp only [hr]
        apply ih _ total hlenerase
        rw [herase]
        have := msgContrib_nonneg (msgs.get ⟨1, h1⟩)
        omega
      | some c =>
        simp only [hr]
        apply ih _ (total - (c.length : Int)) hlenerase
        rw [herase]
        have := msgContrib_ge_content hr
        omega
    · rw [compressPhase2_exit hc]
      refine ⟨hle, ?_⟩
      rcases not_and_or.mp hc with h | h
      · refine Or.inr ?_
        show msgs.length ≤ KEEP_RECENT + 1
        omega
      · refine Or.inl ?_
        show total ≤ (MAX_CONTEXT_CHARS : Int)
        omega

/-- After compression, the estimate is under the cap or the list is at the
minimum retained length. -/
theorem compressMessagesIfNeeded_post (msgs : List LlmMessage) :
    estimateMessageChars (compressMessagesIfNeeded msgs) ≤ (MAX_CONTEXT_CHARS : Int)
      ∨ (compressMessagesIfNeeded msgs).length ≤ KEEP_RECENT + 1 := by
  simp only [compressMessagesIfNeeded]
  by_cases h0 : estimateMessageChars msgs ≤ (MAX_CONTEXT_CHARS : Int)
  · rw [if_pos h0]
    exact Or.inl h0
  · rw [if_neg h0]
    obtain ⟨ha, hb⟩ := compressPhase1_spec (max 1 (msgs.length - KEEP_RECENT) - 1) msgs 1
      (max 1 (msgs.length - KEEP_RECENT)) (estimateMessageChars msgs) rfl rfl
    by_cases h1 : (compressPhase1 msgs 1 (max 1 (msgs.length - KEEP_RECENT))
        (estimateMessageChars msgs)).2 ≤ (MAX_CONTEXT_CHARS : Int)
    · rw [if_pos h1]
      rw [ha] at h1
      exact Or.inl h1
    · rw [if_neg h1]
      obtain ⟨hc, hd⟩ := compressPhase2_spec
        (compressPhase1 msgs 1 (max 1 (msgs.length - KEEP_RECENT))
          (estimateMessageChars msgs)).1.length
        (compressPhase1 msgs 1 (max 1 (msgs.length - KEEP_RECENT))
          (estimateMessageChars msgs)).1
        (compressPhase1 msgs 1 (max 1 (msgs.length - KEEP_RECENT))
          (estimateMessageChars msgs)).2
        rfl (le_of_eq ha.symm)
      rcases hd with hd | hd
      · exact Or.inl (le_trans hc hd)
      · exact Or.inr hd

/-- A list already at the minimum retained length is a fixed point of the
compression pass even when still over the cap: phase 1's shrink bound
collapses to 1 and phase 2's length guard fails. -/
theorem compress_fixed_of_short {R : List LlmMessage}
    (h : R.length ≤ KEEP_RECENT + 1)
    (hr : ¬estimateMessageChars R ≤ (MAX_CONTEXT_CHARS : Int)) :
    compressMessagesIfNeeded R = R := by
  have hsb : max 1 (R.length - KEEP_RECENT) = 1 := by
    simp only [KEEP_RECENT] at h ⊢
    omega
  simp only [compressMessagesIfNeeded]
  rw [if_neg hr, hsb, compressPhase1_exit (by omega)]
  rw [if_neg (show ¬((R, estimateMessageChars R).2 ≤ (MAX_CONTEXT_CHARS : Int)) from hr)]
  rw [compressPhase2_exit (by
    intro hcon
    have h1 : R.length > KEEP_RECENT + 1 := hcon.1
    omega)]

/-- C9 (confirmed): `compressMessagesIfNeeded` is a no-op on every message
list whose estimated total size is at or under the hard cap, and it is
idempotent: applying it a second time with no new messages leaves the list
unchanged. -/
theorem compress_noop_and_idempotent (msgs : List LlmMessage) :
    (estimateMessageChars msgs ≤ (MAX_CONTEXT_CHARS : Int) →
      compressMessagesIfNeeded msgs = msgs)
    ∧ compressMessagesIfNeeded (compressMessagesIfNeeded msgs)
        = compressMessagesIfNeeded msgs := by
  have hnoop : ∀ l : List LlmMessage,
      estimateMessageChars l ≤ (MAX_CONTEXT_CHARS : Int) →
      compressMessagesIfNeeded l = l := by
    intro l hl
    simp only [compressMessagesIfNeeded]
    rw [if_pos hl]
  refine ⟨hnoop msgs, ?_⟩
  rcases compressMessagesIfNeeded_post msgs with h | h
  · exact hnoop _ h
  · by_cases hr : estimateMessageChars (compressMessagesIfNeeded msgs)
        ≤ (MAX_CONTEXT_CHARS : Int)
    · exact hnoop _ hr
    · exact compress_fixed_of_short h hr

/-- C9 witness: a small under-cap message list is returned unchanged. -/
theorem compress_noop_and_idempotent_witness :
    estimateMessageChars [LlmMessage.mk .system (some "sys") none none]
        ≤ (MAX_CONTEXT_CHARS : Int)
    ∧ compressMessagesIfNeeded [LlmMessage.mk .system (some "sys") none none]
        = [LlmMessage.mk .system (some "sys") none none] := by
  refine ⟨by decide, ?_⟩
  exact (compress_noop_and_idempotent [LlmMessage.mk .system (some "sys") none none]).1
    (by decide)
